import Mathlib

/-!
Verification of the build-orchestration core of `asb` (Android skin builder).

The Rust sources are embedded shallowly:

* `src/resource_priority.rs` — the `ResourcePriority` enum and its numeric
  `value` encoding.
* `src/builder.rs` — the base/overlay classification of compiled artifact
  sets (`SkinBuilder::build`, lines 260–315) and the missing-directory /
  "no resources" error path (lines 232–348).
* `src/cache.rs` — the file-level `BuildCache` and the directory-level
  `CommonDependencyCache` hash.
* `src/dependency.rs` — `group_configs_by_dependencies`, `topological_sort`
  (Kahn's algorithm) and `extract_common_dependencies`.

Modelling conventions, stated once:

* Paths are `String`s.  `std::fs::canonicalize` inside `normalize_path`
  depends on the ambient filesystem; the embedding models the documented
  fallback branch (backslashes replaced by forward slashes), which is the
  branch taken whenever the path does not exist on disk.  All claims below
  are insensitive to which branch is taken, since they quantify over the
  already-normalized strings.
* A filesystem is a partial map `String → Option (List Nat)` from a path to
  its byte content; `exists` is `Option.isSome`.
* SHA-256 is modelled as the identity on the byte stream fed to the hasher
  (a collision-free idealization): two hashes are equal exactly when the
  hashed byte streams are equal.  The C6 counterexample does not use this
  idealization in the interesting direction — it exhibits two directory
  states whose hashed byte streams are literally identical.
* Rust `HashMap`/`HashSet` iteration order is unspecified; the embedding
  iterates in insertion order (for maps built over config indices: ascending
  index order).  Every theorem below states a property that is independent
  of that order (set membership, multiset of elements, cycle detection,
  relative topological order), so the choice is immaterial.
-/

namespace Asb

/-- `ResourcePriority` from `src/resource_priority.rs`: `Library(usize)`,
`Main`, `Additional(usize)`. -/
inductive ResourcePriority where
  | Library : Nat → ResourcePriority
  | Main : ResourcePriority
  | Additional : Nat → ResourcePriority
deriving DecidableEq, Repr

namespace ResourcePriority

/-- `ResourcePriority::value` from `src/resource_priority.rs` lines 28–34:
`Library(idx) => idx`, `Main => 1000`, `Additional(idx) => 2000 + idx`. -/
def value : ResourcePriority → Nat
  | Library idx => idx
  | Main => 1000
  | Additional idx => 2000 + idx

/-- Tag test used by the base/overlay split in `SkinBuilder::build`
(`matches!(p, ResourcePriority::Library(_))`). -/
def isLibrary : ResourcePriority → Bool
  | Library _ => true
  | _ => false

/-- Tag test for `Main`. -/
def isMain : ResourcePriority → Bool
  | Main => true
  | _ => false

/-- Tag test for `Additional`. -/
def isAdditional : ResourcePriority → Bool
  | Additional _ => true
  | _ => false

end ResourcePriority

/-- One element of the `flat_files_by_priority` vector in `SkinBuilder::build`
(`src/builder.rs` line 230): a `(ResourcePriority, Vec<PathBuf>, PathBuf)`
triple of priority, compiled flat files and originating resource directory. -/
structure PrioEntry where
  priority : ResourcePriority
  files : List String
  dir : String
deriving DecidableEq, Repr

/-- The comparison key of
`flat_files_by_priority.sort_by_key(|(priority, _, _)| priority.value())`. -/
def entryLE (a b : PrioEntry) : Prop :=
  a.priority.value ≤ b.priority.value

instance : DecidableRel entryLE := fun _ _ => Nat.decLe _ _

instance : IsTotal PrioEntry entryLE := ⟨fun _ _ => Nat.le_total _ _⟩

instance : IsTrans PrioEntry entryLE := ⟨fun _ _ _ => Nat.le_trans⟩

/-- `src/builder.rs` line 260: sort the compiled entries by ascending priority
value (Rust `sort_by_key` is a stable sort; so is insertion sort). -/
def sortEntries (entries : List PrioEntry) : List PrioEntry :=
  List.insertionSort entryLE entries

/-- The body of the `for (priority, files, dir) in &flat_files_by_priority`
loop of `SkinBuilder::build` (`src/builder.rs` lines 271–315): `Library`
artifacts extend the base; `Main` extends the base unless a library is present
(in which case it becomes its own overlay set); `Additional` always pushes its
own overlay set. -/
def classifyStep (hasLib : Bool) (acc : List String × List (List String))
    (e : PrioEntry) : List String × List (List String) :=
  match e.priority with
  | .Library _ => (acc.1 ++ e.files, acc.2)
  | .Main => if hasLib then (acc.1, acc.2 ++ [e.files]) else (acc.1 ++ e.files, acc.2)
  | .Additional _ => (acc.1, acc.2 ++ [e.files])

/-- `src/builder.rs` lines 260–315: sort `flat_files_by_priority` by priority
value, compute `has_library`, then separate `base_flat_files` from
`overlay_flat_files`. -/
def classifyEntries (entries : List PrioEntry) : List String × List (List String) :=
  let sorted := sortEntries entries
  let hasLib := sorted.any fun e => e.priority.isLibrary
  sorted.foldl (classifyStep hasLib) ([], [])

/-- Which entries end up in the base set, as a function of `has_library`:
libraries always, `Main` exactly when no library is present, `Additional`
never.  Used only to state and prove facts about `classifyEntries`. -/
def baseTag (hasLib : Bool) (e : PrioEntry) : Bool :=
  match e.priority with
  | .Library _ => true
  | .Main => !hasLib
  | .Additional _ => false

/-- A filesystem: a partial map from a path to the byte content of the file
at that path (`none` = no such file). -/
abbrev FS : Type := String → Option (List Nat)

/-- `Path::exists`, over the modelled filesystem. -/
def FS.pathExists (fs : FS) (p : String) : Bool :=
  (fs p).isSome

/-- `BuildCache::calculate_hash` (`src/cache.rs` lines 66–71): read the whole
file and SHA-256 it, propagating a read failure.  The digest is modelled as
the byte content itself (collision-free idealization). -/
def calculateHash (fs : FS) (p : String) : Except String (List Nat) :=
  match fs p with
  | some content => .ok content
  | none => .error "failed to read file"

/-- `CacheEntry` (`src/cache.rs` lines 8–13): content hash, timestamp and the
produced flat-file path. -/
structure CacheEntry where
  hash : List Nat
  timestamp : Nat
  flat_file : String
deriving DecidableEq, Repr

/-- The `entries : HashMap<PathBuf, CacheEntry>` field of `CacheData`,
modelled as an association list with unique keys kept in insertion order. -/
abbrev BuildCacheEntries : Type := List (String × CacheEntry)

/-- `HashMap::get` on the modelled entries map. -/
def lookupEntry : List (String × CacheEntry) → String → Option CacheEntry
  | [], _ => none
  | (k, v) :: rest, key => if k = key then some v else lookupEntry rest key

/-- `HashMap::insert` on the modelled entries map: replace the binding if the
key is present, append it otherwise. -/
def insertEntry : List (String × CacheEntry) → String → CacheEntry → List (String × CacheEntry)
  | [], key, v => [(key, v)]
  | (k, w) :: rest, key, v =>
      if k = key then (k, v) :: rest else (k, w) :: insertEntry rest key v

/-- `BuildCache::needs_recompile` (`src/cache.rs` lines 74–91): `true` when no
entry exists; `true` when the recorded flat file no longer exists; otherwise
compare the file's current content hash with the recorded one (a failing read
propagates as an error). -/
def needsRecompile (fs : FS) (entries : BuildCacheEntries) (resourceFile : String) :
    Except String Bool :=
  match lookupEntry entries resourceFile with
  | none => .ok true
  | some entry =>
      if fs.pathExists entry.flat_file = false then .ok true
      else
        match calculateHash fs resourceFile with
        | .error e => .error e
        | .ok currentHash => .ok (decide (currentHash ≠ entry.hash))

/-- `BuildCache::update_entry` (`src/cache.rs` lines 102–119): hash the source
file and overwrite its cache entry with `(hash, now, flat_file)`. -/
def updateEntry (fs : FS) (entries : BuildCacheEntries) (resourceFile flatFile : String)
    (now : Nat) : Except String BuildCacheEntries :=
  match calculateHash fs resourceFile with
  | .error e => .error e
  | .ok h => .ok (insertEntry entries resourceFile ⟨h, now, flatFile⟩)

/-- UTF-8 bytes of a path string as fed to the hasher
(`rel_path.to_string_lossy().as_bytes()`), modelled as the character
codepoints; this agrees with UTF-8 on the ASCII paths used below. -/
def pathBytes (s : String) : List Nat :=
  s.data.map Char.toNat

/-- A directory listing: for every file beneath the directory root, its path
relative to that root and its byte content, in filesystem enumeration order.
(`WalkDir` yields full paths sharing the root as a prefix, so sorting the full
paths orders them exactly like the relative paths.) -/
abbrev DirListing : Type := List (String × List Nat)

/-- The comparison used by `files.sort()` in `calculate_directory_hash`. -/
def fileLE (a b : String × List Nat) : Prop :=
  a.1 ≤ b.1

instance : DecidableRel fileLE := fun a b => inferInstanceAs (Decidable (a.1 ≤ b.1))

instance : IsTotal (String × List Nat) fileLE := ⟨fun a b => le_total a.1 b.1⟩

instance : IsTrans (String × List Nat) fileLE := ⟨fun _ _ _ => le_trans⟩

/-- `CommonDependencyCache::calculate_directory_hash` (`src/cache.rs` lines
213–239): sort the files, then feed each file's relative-path bytes followed
by its content into one SHA-256.  Modelled as the concatenated byte stream
itself; two directory states hash equal exactly when these streams are
equal. -/
def directoryHash (listing : DirListing) : List Nat :=
  (List.insertionSort fileLE listing).flatMap fun f => pathBytes f.1 ++ f.2

/-- The fields of `BuildConfig` (`src/types.rs`) read by the dependency
resolver and the common-dependency extractor: the main resource directory,
the optional additional resource directories, and the package name. -/
structure BuildConfig where
  resource_dir : String
  additional_resource_dirs : Option (List String)
  package_name : String
deriving DecidableEq, Repr

/-- `ConfigWithIndex` (`src/dependency.rs` lines 10–13). -/
structure ConfigWithIndex where
  index : Nat
  config : BuildConfig
deriving DecidableEq, Repr

/-- `CommonDependency` (`src/dependency.rs` lines 17–22). -/
structure CommonDependency where
  resource_dir : String
  dependent_configs : List Nat
deriving DecidableEq, Repr

/-- `normalize_path` (`src/dependency.rs` lines 145–153).  `canonicalize`
succeeds only for paths that exist on the ambient filesystem; the embedding
takes the documented fallback branch: every backslash character replaced by a
forward slash (`replace('\\', "/")` with a `char` pattern replaces each
occurrence of the character). -/
def normalize_path (path : String) : String :=
  ⟨path.data.map fun c => if c = '\\' then '/' else c⟩

/-- The additional resource directories of a configuration
(`config.additional_resource_dirs`, `None` contributing nothing). -/
def additionalDirs (c : BuildConfig) : List String :=
  c.additional_resource_dirs.getD []

/-- `.iter().enumerate()` starting at index `s`. -/
def enumerate (s : Nat) : List α → List (Nat × α)
  | [] => []
  | a :: l => (s, a) :: enumerate (s + 1) l

/-- One step of building `resource_usage` in `extract_common_dependencies`
(`src/dependency.rs` lines 255–258):
`resource_usage.entry(normalized).or_insert_with(|| (Vec::new(), dir.clone())).0.push(idx)`,
on the map modelled as an association list in insertion order. -/
def addUsage : List (String × List Nat × String) → String → Nat → String →
    List (String × List Nat × String)
  | [], key, idx, orig => [(key, ([idx], orig))]
  | (k, is, o) :: rest, key, idx, orig =>
      if k = key then (k, is ++ [idx], o) :: rest
      else (k, is, o) :: addUsage rest key idx orig

/-- `HashMap::get` on the modelled `resource_usage` map. -/
def lookupUsage : List (String × List Nat × String) → String → Option (List Nat × String)
  | [], _ => none
  | (k, is, o) :: rest, key => if k = key then some (is, o) else lookupUsage rest key

/-- The `(idx, dir)` pairs the second pass of `extract_common_dependencies`
iterates over: every configuration index paired with each of its additional
resource directories, in iteration order. -/
def usagePairs (configs : List BuildConfig) : List (Nat × String) :=
  (enumerate 0 configs).flatMap fun p => (additionalDirs p.2).map fun dir => (p.1, dir)

/-- Processing one `(idx, dir)` pair of the second pass: push `idx` onto the
entry keyed by the normalized directory. -/
def stepUsage (m : List (String × List Nat × String)) (pd : Nat × String) :
    List (String × List Nat × String) :=
  addUsage m (normalize_path pd.2) pd.1 pd.2

/-- The `resource_usage` map after the second pass of
`extract_common_dependencies` (`src/dependency.rs` lines 250–261). -/
def resourceUsage (configs : List BuildConfig) : List (String × List Nat × String) :=
  (usagePairs configs).foldl stepUsage []

/-- Rendering one retained `resource_usage` entry as a `CommonDependency`
(`src/dependency.rs` lines 266–284): report the first configuration's main
resource directory whose normalized form equals the key when one exists, else
the entry's first-seen original path.  (The `main_resource_dirs` set built by
the first pass, lines 241–247, is never read afterwards and is omitted.) -/
def usageToDep (configs : List BuildConfig) (e : String × List Nat × String) :
    CommonDependency :=
  { resource_dir :=
      match configs.find? (fun c => normalize_path c.resource_dir = e.1) with
      | some c => c.resource_dir
      | none => e.2.2,
    dependent_configs := e.2.1 }

/-- `extract_common_dependencies` (`src/dependency.rs` lines 229–288), second
half: empty for 0 or 1 configurations; otherwise keep every `resource_usage`
entry with more than one recorded index, rendered by `usageToDep`. -/
def extract_common_dependencies (configs : List BuildConfig) : List CommonDependency :=
  if configs.length ≤ 1 then []
  else
    ((resourceUsage configs).filter fun e => 1 < e.2.1.length).map (usageToDep configs)

/-- One element of the `resource_dirs_with_priority` vector of
`SkinBuilder::build` (`src/builder.rs` lines 179–215): resource directory,
priority, and the per-directory compile subdirectory name. -/
structure DirEntry where
  dir : String
  priority : ResourcePriority
  dirName : String
deriving DecidableEq, Repr

/-- The three accumulators of the compile loop of `SkinBuilder::build`
(`src/builder.rs` lines 225–256): `flat_files_by_priority`, `missing_dirs`
and `valid_resource_dirs`. -/
structure CollectState where
  flat : List PrioEntry
  missing : List String
  valid : List String
deriving DecidableEq, Repr

/-- The compile loop of `SkinBuilder::build` (`src/builder.rs` lines
232–256), over the already-sorted `resource_dirs_with_priority` entries.  The
ambient filesystem and the external compiler are oracles: `dirExists` is
`res_dir.exists()`, `filesOf` is `find_resource_files`, and `compileDir` is
the flat-file list `compile_all_resources` produces for that directory.  An
existing directory with a non-empty file list contributes its compiled entry
and is recorded valid; an existing directory with no files is only recorded
valid; a missing directory is recorded in `missing_dirs` and contributes
nothing. -/
def collectStep (dirExists : String → Bool) (filesOf : String → List String)
    (compileDir : String → List String) (st : CollectState) (e : DirEntry) : CollectState :=
  if dirExists e.dir then
    if (filesOf e.dir).isEmpty then
      { st with valid := st.valid ++ [e.dir] }
    else
      { st with
          flat := st.flat ++ [⟨e.priority, compileDir e.dir, e.dir⟩],
          valid := st.valid ++ [e.dir] }
  else
    { st with missing := st.missing ++ [e.dir] }

/-- The whole compile loop: fold `collectStep` over the sorted entries
starting from three empty accumulators. -/
def collectCompiled (dirExists : String → Bool) (filesOf : String → List String)
    (compileDir : String → List String) (entries : List DirEntry) : CollectState :=
  entries.foldl (collectStep dirExists filesOf compileDir) ⟨[], [], []⟩

/-- `BuildResult` (`src/types.rs`): success flag, optional output package
path, error strings.  (The elapsed-duration field is wall-clock state outside
the embedding.) -/
structure BuildResult where
  success : Bool
  apk_path : Option String
  errors : List String
deriving DecidableEq, Repr

/-- Left-to-right concatenation, as the `push_str` loop performs it. -/
def concatStrings : List String → String
  | [] => ""
  | s :: rest => s ++ concatStrings rest

/-- The missing-directory block of the error message (`src/builder.rs` lines
326–332): present only when some directory was missing, one
`"  - <dir>\n"` line per missing directory. -/
def missingDirsBlock (missing : List String) : String :=
  if missing.isEmpty then ""
  else
    "The following resource directories do not exist:\n"
    ++ concatStrings (missing.map fun dir => "  - " ++ dir ++ "\n") ++ "\n"

/-- The fixed suggestions appended to the error message (`src/builder.rs`
lines 334–340). -/
def solutionsText : String :=
  "Possible solutions:\n"
  ++ "  1. Make sure you're running 'asb build' from your Android project root directory\n"
  ++ "  2. Create a config file with: asb init\n"
  ++ "  3. Specify custom paths with: asb build --resource-dir <path> --manifest <path> --android-jar <path>\n"
  ++ "  4. Check that your resource directory contains valid Android resources\n"

/-- The full "No resources found to compile" error message (`src/builder.rs`
lines 323–340). -/
def noResourcesError (missing : List String) : String :=
  "No resources found to compile.\n\n" ++ missingDirsBlock missing ++ solutionsText

/-- `total_flat_files` (`src/builder.rs` lines 317–318): base artifacts plus
all overlay artifacts after classification. -/
def totalFlatFiles (flat : List PrioEntry) : Nat :=
  (classifyEntries flat).1.length + ((classifyEntries flat).2.map List.length).sum

/-- The `total_flat_files == 0` early exit of `SkinBuilder::build`
(`src/builder.rs` lines 320–348): a failed `BuildResult` carrying the
"no resources" error when nothing compiled, `none` when the build proceeds
to linking (whose outcome depends on the external linker and is outside the
embedding). -/
def buildEarlyResult (dirExists : String → Bool) (filesOf : String → List String)
    (compileDir : String → List String) (entries : List DirEntry) : Option BuildResult :=
  let st := collectCompiled dirExists filesOf compileDir entries
  if totalFlatFiles st.flat = 0 then
    some { success := false, apk_path := none, errors := [noResourcesError st.missing] }
  else
    none

/-- `sub` occurs somewhere inside `s`. -/
def containsStr (s sub : String) : Prop :=
  ∃ pre post, s = pre ++ sub ++ post

/-- The default `BuildConfig` used for (never-reached) out-of-range list
indexing in the embedding. -/
def defaultConfig : BuildConfig :=
  ⟨"", none, ""⟩

/-- The `deps` vector computed for configuration `idx` by
`group_configs_by_dependencies` (`src/dependency.rs` lines 65–93): for each of
`idx`'s additional resource directories, every *other* configuration whose
normalized main resource directory equals the normalized additional
directory.  (The provider `HashSet` is iterated here in ascending index
order; membership and multiplicities are iteration-order independent.) -/
def configDeps (configs : List BuildConfig) (idx : Nat) : List Nat :=
  (additionalDirs (configs.getD idx defaultConfig)).flatMap fun dir =>
    (List.range configs.length).filter fun j =>
      decide (j ≠ idx)
        && decide (normalize_path (configs.getD j defaultConfig).resource_dir
            = normalize_path dir)

/-- Configuration `i` appears on some side of a dependency edge: it has a
nonempty `deps` vector, or some configuration's `deps` vector contains it.
This is exactly membership in the `in_dependency_chain` set of
`group_configs_by_dependencies` (`src/dependency.rs` lines 102–110). -/
def onEdge (configs : List BuildConfig) (i : Nat) : Prop :=
  configDeps configs i ≠ []
  ∨ ∃ u, u < configs.length ∧ i ∈ configDeps configs u

/-- Boolean form of `in_dependency_chain` membership (`src/dependency.rs`
lines 102–110). -/
def inChain (configs : List BuildConfig) (i : Nat) : Bool :=
  !(configDeps configs i).isEmpty
  || (List.range configs.length).any fun u => (configDeps configs u).contains i

/-- The dependents adjacency list of `topological_sort`
(`src/dependency.rs` lines 175–183): node `d`'s list holds each dependent `u`
once per occurrence of `d` in `u`'s `deps` vector.  (The `HashMap` iteration
order of the Rust construction is modelled as ascending dependent order;
every property proved below is independent of the order within this list.) -/
def adjOf (n : Nat) (deps : Nat → List Nat) (d : Nat) : List Nat :=
  (List.range n).flatMap fun u => List.replicate ((deps u).count d) u

/-- The body of the dependents loop in `topological_sort` (`src/dependency.rs`
lines 196–203): decrement the dependent's in-degree and enqueue it when the
decrement makes it zero.  The `v = 1` guard is the pre-decrement reading of
Rust's post-decrement `== 0` check; on the (unreachable under the loop
invariant) underflow `0 - 1`, Rust's release-mode wrap-around also fails the
`== 0` check, which the saturating `v - 1` with the `v = 1` guard matches. -/
def decrementAll (inDeg : List Nat) : List Nat → List Nat × List Nat
  | [] => (inDeg, [])
  | d :: ds =>
      let v := inDeg.getD d 0
      let next := decrementAll (inDeg.set d (v - 1)) ds
      if v = 1 then (next.1, d :: next.2) else next

/-- The `while let Some(node) = queue.pop_front()` loop of `topological_sort`
(`src/dependency.rs` lines 192–204).  The loop is written with explicit fuel;
`topological_sort` supplies fuel `n`, which the invariant `KahnInv` below
proves sufficient (each iteration appends one node to `sorted`, and `sorted`
never exceeds `n` distinct nodes), so the fuel never runs out before the
queue drains. -/
def kahnLoop (adj : Nat → List Nat) : Nat → List Nat → List Nat → List Nat → List Nat
  | 0, _, _, sorted => sorted
  | fuel + 1, inDeg, queue, sorted =>
    match queue with
    | [] => sorted
    | node :: rest =>
        let step := decrementAll inDeg (adj node)
        kahnLoop adj fuel step.1 (rest ++ step.2) (sorted ++ [node])

/-- `topological_sort` (`src/dependency.rs` lines 171–212): in-degrees from
the `deps` vectors, initial queue of all zero-in-degree nodes in ascending
order, Kahn's loop, and the cycle check `sorted.len() != num_configs`. -/
def topological_sort (n : Nat) (deps : Nat → List Nat) : Except String (List Nat) :=
  let inDeg := (List.range n).map fun i => (deps i).length
  let queue := (List.range n).filter fun i => inDeg.getD i 0 = 0
  let sorted := kahnLoop (adjOf n deps) n inDeg queue []
  if sorted.length ≠ n then
    .error "Circular dependency detected in configuration dependencies"
  else
    .ok sorted

/-- `group_configs_by_dependencies` (`src/dependency.rs` lines 36–129): empty
and singleton early returns; otherwise topologically sort, then walk the
sorted indices pushing chain members into the single current group and the
others into `independent`, and emit the group if it is nonempty. -/
def group_configs_by_dependencies (configs : List BuildConfig) :
    Except String (List ConfigWithIndex × List (List ConfigWithIndex)) :=
  if configs.length = 0 then .ok ([], [])
  else if configs.length = 1 then .ok ([⟨0, configs.getD 0 defaultConfig⟩], [])
  else
    match topological_sort configs.length (configDeps configs) with
    | .error e => .error e
    | .ok sortedIdx =>
        let withIdx := sortedIdx.map fun i => ConfigWithIndex.mk i (configs.getD i defaultConfig)
        let indep := withIdx.filter fun cw => !(inChain configs cw.index)
        let grp := withIdx.filter fun cw => inChain configs cw.index
        .ok (indep, if grp.isEmpty then [] else [grp])

/-- The loop invariant of Kahn's algorithm as implemented by `kahnLoop`, for
a graph on `n` nodes where node `x` depends on the nodes of `deps x` (with
multiplicity).  `inDeg`, `queue`, `sorted` are the loop state. -/
structure KahnInv (n : Nat) (deps : Nat → List Nat)
    (inDeg queue sorted : List Nat) : Prop where
  hlen : inDeg.length = n
  hdeg : ∀ x, x < n → inDeg.getD x 0 = (deps x).countP fun y => !(decide (y ∈ sorted))
  hqn : queue.Nodup
  hsn : sorted.Nodup
  hdisj : ∀ x ∈ queue, x ∉ sorted
  hqlt : ∀ x ∈ queue, x < n
  hslt : ∀ x ∈ sorted, x < n
  hstuck : ∀ x, x < n → x ∉ sorted → x ∉ queue → inDeg.getD x 0 ≠ 0
  hqzero : ∀ x ∈ queue, inDeg.getD x 0 = 0
  hqdeps : ∀ x ∈ queue, ∀ y ∈ deps x, y ∈ sorted
  hsound : ∀ s1 x s2, sorted = s1 ++ x :: s2 → ∀ y ∈ deps x, y ∈ s1

/-- C4: for all valid indices `i`, `j` (per the spec, fewer `Library`
directories than the `LARGE_CONSTANT = 1000` used by the encoding, so
`i < 1000`): `Library(i).value() < Main.value() < Additional(j).value()`,
`Library(i).value() < Library(i+1).value()`,
`Additional(i).value() < Additional(i+1).value()`, and the encoding is
`Library(i) ↦ i`, `Main ↦ 1000`, `Additional(i) ↦ 2000 + i`. -/
theorem resourcePriority_value_order (i j : Nat) (hi : i < 1000) :
    (ResourcePriority.Library i).value < ResourcePriority.Main.value
    ∧ ResourcePriority.Main.value < (ResourcePriority.Additional j).value
    ∧ (ResourcePriority.Library i).value < (ResourcePriority.Library (i + 1)).value
    ∧ (ResourcePriority.Additional i).value < (ResourcePriority.Additional (i + 1)).value
    ∧ (ResourcePriority.Library i).value = i
    ∧ ResourcePriority.Main.value = 1000
    ∧ (ResourcePriority.Additional j).value = 2000 + j := by
  refine ⟨?_, ?_, ?_, ?_, rfl, rfl, rfl⟩ <;> simp only [ResourcePriority.value] <;> omega

/-- Witness for C4 at `i = 3`, `j = 5`. -/
theorem resourcePriority_value_order_witness :
    3 < 1000
    ∧ ((ResourcePriority.Library 3).value < ResourcePriority.Main.value
        ∧ ResourcePriority.Main.value < (ResourcePriority.Additional 5).value
        ∧ (ResourcePriority.Library 3).value < (ResourcePriority.Library (3 + 1)).value
        ∧ (ResourcePriority.Additional 3).value < (ResourcePriority.Additional (3 + 1)).value
        ∧ (ResourcePriority.Library 3).value = 3
        ∧ ResourcePriority.Main.value = 1000
        ∧ (ResourcePriority.Additional 5).value = 2000 + 5) :=
  ⟨by decide, resourcePriority_value_order 3 5 (by decide)⟩

/-- Unfolding of the base/overlay fold of `SkinBuilder::build`: the base
accumulates the artifacts of exactly the `baseTag` entries in list order, and
the overlays are the artifact lists of the remaining entries in list order. -/
theorem classifyStep_foldl (hasLib : Bool) (l : List PrioEntry)
    (b : List String) (o : List (List String)) :
    l.foldl (classifyStep hasLib) (b, o) =
      (b ++ (l.filter (baseTag hasLib)).flatMap PrioEntry.files,
       o ++ (l.filter fun e => !(baseTag hasLib e)).map PrioEntry.files) := by
  induction l generalizing b o with
  | nil => simp
  | cons e rest ih =>
    simp only [List.foldl_cons, List.filter_cons]
    cases hp : e.priority with
    | Library k =>
        simp [classifyStep, baseTag, hp, ih, List.append_assoc]
    | Main =>
        cases hasLib <;> simp [classifyStep, baseTag, hp, ih, List.append_assoc]
    | Additional k =>
        simp [classifyStep, baseTag, hp, ih, List.append_assoc]

/-- C1: the entries are sorted by ascending priority value (as a permutation
of the input); if some entry is a `Library` entry, the base set is exactly the
concatenation of the `Library` entries' artifacts and every non-`Library`
entry becomes its own overlay set, in ascending priority-value order; if no
entry is a `Library` entry, the base set is exactly the concatenation of the
`Main` entries' artifacts and every `Additional` entry becomes its own overlay
set, in ascending order. -/
theorem classifyEntries_base_overlays (entries : List PrioEntry) :
    (sortEntries entries).Perm entries
    ∧ (sortEntries entries).Pairwise entryLE
    ∧ ((entries.any fun e => e.priority.isLibrary) = true →
        classifyEntries entries =
          (((sortEntries entries).filter fun e => e.priority.isLibrary).flatMap PrioEntry.files,
           ((sortEntries entries).filter fun e => !e.priority.isLibrary).map PrioEntry.files))
    ∧ ((entries.any fun e => e.priority.isLibrary) = false →
        classifyEntries entries =
          (((sortEntries entries).filter fun e => e.priority.isMain).flatMap PrioEntry.files,
           ((sortEntries entries).filter fun e => e.priority.isAdditional).map PrioEntry.files)) := by
  have hperm : (sortEntries entries).Perm entries := List.perm_insertionSort _ _
  have hany : ((sortEntries entries).any fun e => e.priority.isLibrary)
      = (entries.any fun e => e.priority.isLibrary) := by
    cases h : entries.any fun e => e.priority.isLibrary with
    | true =>
        rw [List.any_eq_true] at h ⊢
        obtain ⟨x, hx, hpx⟩ := h
        exact ⟨x, hperm.mem_iff.mpr hx, hpx⟩
    | false =>
        rw [List.any_eq_false] at h ⊢
        intro x hx
        exact h x (hperm.mem_iff.mp hx)
  refine ⟨hperm, List.sorted_insertionSort entryLE entries, ?_, ?_⟩
  · intro h
    have hcl : classifyEntries entries
        = (sortEntries entries).foldl
            (classifyStep ((sortEntries entries).any fun e => e.priority.isLibrary)) ([], []) := rfl
    rw [hcl, hany, h, classifyStep_foldl]
    simp only [List.nil_append]
    congr 1
    · congr 1
      apply List.filter_congr
      intro e _
      cases hp : e.priority <;> simp [baseTag, ResourcePriority.isLibrary, hp]
    · congr 1
      apply List.filter_congr
      intro e _
      cases hp : e.priority <;> simp [baseTag, ResourcePriority.isLibrary, hp]
  · intro h
    have hnolib : ∀ e ∈ sortEntries entries, ¬ e.priority.isLibrary = true := by
      intro e he
      exact List.any_eq_false.mp (hany.trans h) e he
    have hcl : classifyEntries entries
        = (sortEntries entries).foldl
            (classifyStep ((sortEntries entries).any fun e => e.priority.isLibrary)) ([], []) := rfl
    rw [hcl, hany, h, classifyStep_foldl]
    simp only [List.nil_append]
    congr 1
    · congr 1
      apply List.filter_congr
      intro e he
      have hl := hnolib e he
      cases hp : e.priority with
      | Library k => simp [hp, ResourcePriority.isLibrary] at hl
      | Main => simp [baseTag, ResourcePriority.isMain, hp]
      | Additional k => simp [baseTag, ResourcePriority.isMain, ResourcePriority.isAdditional, hp]
    · congr 1
      apply List.filter_congr
      intro e he
      have hl := hnolib e he
      cases hp : e.priority with
      | Library k => simp [hp, ResourcePriority.isLibrary] at hl
      | Main => simp [baseTag, ResourcePriority.isMain, ResourcePriority.isAdditional, hp]
      | Additional k => simp [baseTag, ResourcePriority.isAdditional, hp]

/-- Witness for C1: a concrete entry list containing a library entry, with the
hypothesis of the library branch discharged by evaluation. -/
theorem classifyEntries_base_overlays_witness :
    (([⟨ResourcePriority.Main, ["m1", "m2"], "res"⟩,
       ⟨ResourcePriority.Library 0, ["l1"], "aar0"⟩,
       ⟨ResourcePriority.Additional 0, ["a1"], "extra"⟩] : List PrioEntry).any
        fun e => e.priority.isLibrary) = true
    ∧ classifyEntries
        [⟨ResourcePriority.Main, ["m1", "m2"], "res"⟩,
         ⟨ResourcePriority.Library 0, ["l1"], "aar0"⟩,
         ⟨ResourcePriority.Additional 0, ["a1"], "extra"⟩] =
      (((sortEntries
            [⟨ResourcePriority.Main, ["m1", "m2"], "res"⟩,
             ⟨ResourcePriority.Library 0, ["l1"], "aar0"⟩,
             ⟨ResourcePriority.Additional 0, ["a1"], "extra"⟩]).filter
          fun e => e.priority.isLibrary).flatMap PrioEntry.files,
       ((sortEntries
            [⟨ResourcePriority.Main, ["m1", "m2"], "res"⟩,
             ⟨ResourcePriority.Library 0, ["l1"], "aar0"⟩,
             ⟨ResourcePriority.Additional 0, ["a1"], "extra"⟩]).filter
          fun e => !e.priority.isLibrary).map PrioEntry.files) :=
  ⟨by decide,
   (classifyEntries_base_overlays
      [⟨ResourcePriority.Main, ["m1", "m2"], "res"⟩,
       ⟨ResourcePriority.Library 0, ["l1"], "aar0"⟩,
       ⟨ResourcePriority.Additional 0, ["a1"], "extra"⟩]).2.2.1 (by decide)⟩

/-- Looking up the key just inserted returns the inserted entry. -/
theorem lookupEntry_insertEntry_self (es : List (String × CacheEntry)) (k : String)
    (v : CacheEntry) : lookupEntry (insertEntry es k v) k = some v := by
  induction es with
  | nil => simp [insertEntry, lookupEntry]
  | cons p rest ih =>
      obtain ⟨k0, w⟩ := p
      by_cases h : k0 = k
      · simp [insertEntry, lookupEntry, h]
      · simp [insertEntry, lookupEntry, h, ih]

/-- C5: file-cache round trip.  After a successful
`update_entry(file, artifact)` (taken in filesystem state `fs`),
`needs_recompile(file)` — evaluated in any later filesystem state `fs1` — is
`false` while the file's content is unchanged and the artifact still exists;
it is `true` as soon as the artifact is deleted, and `true` as soon as the
file's content differs from the recorded one; and for any cache,
`needs_recompile` is `true` whenever no entry exists for the file. -/
theorem buildCache_roundtrip (fs fs1 : FS) (entries entries1 : BuildCacheEntries)
    (file artifact : String) (now : Nat)
    (hupd : updateEntry fs entries file artifact now = .ok entries1) :
    (fs1 file = fs file → fs1.pathExists artifact = true →
        needsRecompile fs1 entries1 file = .ok false)
    ∧ (fs1.pathExists artifact = false →
        needsRecompile fs1 entries1 file = .ok true)
    ∧ (∀ c1, fs1 file = some c1 → fs file ≠ some c1 → fs1.pathExists artifact = true →
        needsRecompile fs1 entries1 file = .ok true)
    ∧ (∀ es f, lookupEntry es f = none → needsRecompile fs1 es f = .ok true) := by
  cases hfs : fs file with
  | none => simp [updateEntry, calculateHash, hfs] at hupd
  | some c0 =>
    have he1 : entries1 = insertEntry entries file ⟨c0, now, artifact⟩ := by
      simp [updateEntry, calculateHash, hfs] at hupd
      exact hupd.symm
    have hlook : lookupEntry entries1 file = some ⟨c0, now, artifact⟩ := by
      rw [he1]
      exact lookupEntry_insertEntry_self _ _ _
    refine ⟨?_, ?_, ?_, ?_⟩
    · intro hsame hex
      simp [needsRecompile, hlook, hex, calculateHash, hsame, hfs]
    · intro hmiss
      simp [needsRecompile, hlook, hmiss]
    · intro c1 h1 hne hex
      have hcc : c1 ≠ c0 := by
        intro h
        exact hne (by rw [h])
      simp [needsRecompile, hlook, hex, calculateHash, h1, hcc]
    · intro es f hnone
      simp [needsRecompile, hnone]

/-- Witness for C5: a two-file filesystem, an update recorded for `src.xml`
with artifact `out.flat`, and the fresh-cache branch evaluated concretely. -/
theorem buildCache_roundtrip_witness :
    needsRecompile
      (fun p => if p = "src.xml" then some [1, 2]
                else if p = "out.flat" then some [9] else none)
      [("src.xml", ⟨[1, 2], 7, "out.flat"⟩)] "src.xml" = .ok false :=
  (buildCache_roundtrip
      (fun p => if p = "src.xml" then some [1, 2]
                else if p = "out.flat" then some [9] else none)
      (fun p => if p = "src.xml" then some [1, 2]
                else if p = "out.flat" then some [9] else none)
      [] [("src.xml", ⟨[1, 2], 7, "out.flat"⟩)] "src.xml" "out.flat" 7 (by rfl)).1
    rfl (by rfl)

/-- Two listings sorted by path, with duplicate-free path keys, that are
permutations of each other are equal. -/
theorem sorted_listing_eq_of_perm :
    ∀ (l1 l2 : DirListing), l1.Perm l2 → l1.Pairwise fileLE → l2.Pairwise fileLE →
      (l1.map Prod.fst).Nodup → l1 = l2 := by
  intro l1
  induction l1 with
  | nil =>
      intro l2 hperm _ _ _
      rw [hperm.symm.eq_nil]
  | cons a t1 ih =>
      intro l2 hperm hs1 hs2 hnd
      cases l2 with
      | nil => exact absurd hperm.eq_nil (by simp)
      | cons b t2 =>
          have hab : a = b := by
            have hbmem : b ∈ a :: t1 := hperm.mem_iff.mpr (List.mem_cons_self b t2)
            rcases List.mem_cons.mp hbmem with hb | hb
            · exact hb.symm
            · have hamem : a ∈ b :: t2 := hperm.mem_iff.mp (List.mem_cons_self a t1)
              rcases List.mem_cons.mp hamem with ha | ha
              · exact ha
              · have h1 : a.1 ≤ b.1 := (List.pairwise_cons.mp hs1).1 b hb
                have h2 : b.1 ≤ a.1 := (List.pairwise_cons.mp hs2).1 a ha
                have hkey : a.1 = b.1 := le_antisymm h1 h2
                have : a.1 ∈ t1.map Prod.fst := by
                  rw [hkey]
                  exact List.mem_map_of_mem Prod.fst hb
                exact absurd this (List.nodup_cons.mp (by simpa using hnd)).1
          subst hab
          have htail : t1.Perm t2 := hperm.cons_inv
          have := ih t2 htail (List.pairwise_cons.mp hs1).2 (List.pairwise_cons.mp hs2).2
            (List.nodup_cons.mp (by simpa using hnd)).2
          rw [this]

/-- C6 (amended): the directory hash is invariant to the order in which the
filesystem enumerates the files — any permutation of a duplicate-free listing
hashes identically, so an unchanged file set with unchanged contents gives an
unchanged hash.  (The converse direction of the original claim is refuted by
`directoryHash_collision`.) -/
theorem directoryHash_enum_order_invariant (l1 l2 : DirListing)
    (hnd : (l1.map Prod.fst).Nodup) (hperm : l1.Perm l2) :
    directoryHash l1 = directoryHash l2 := by
  unfold directoryHash
  congr 1
  apply sorted_listing_eq_of_perm
  · exact (List.perm_insertionSort _ _).trans (hperm.trans (List.perm_insertionSort _ _).symm)
  · exact List.sorted_insertionSort _ _
  · exact List.sorted_insertionSort _ _
  · have hp : List.Perm ((List.insertionSort fileLE l1).map Prod.fst) (l1.map Prod.fst) :=
      (List.perm_insertionSort _ _).map _
    exact hp.nodup_iff.mpr hnd

/-- Witness for C6 (amended): a two-file directory enumerated in two orders. -/
theorem directoryHash_enum_order_invariant_witness :
    ((([("b", [2]), ("a", [1])] : DirListing).map Prod.fst).Nodup
      ∧ ([("b", [2]), ("a", [1])] : DirListing).Perm [("a", [1]), ("b", [2])])
    ∧ directoryHash [("b", [2]), ("a", [1])] = directoryHash [("a", [1]), ("b", [2])] :=
  ⟨⟨by decide, by decide⟩,
   directoryHash_enum_order_invariant [("b", [2]), ("a", [1])] [("a", [1]), ("b", [2])]
     (by decide) (by decide)⟩

/-- C6 counterexample: the hash does not change *only* when the file set or
some content changes.  A directory containing a single empty file named "ab"
and a directory containing a single file named "a" with content `[98]` (the
byte of "b") feed the identical byte stream to the hasher, so their hashes
are equal although the file sets differ. -/
theorem directoryHash_collision :
    directoryHash [("ab", [])] = directoryHash [("a", [98])]
    ∧ ([("ab", [])] : DirListing) ≠ [("a", [98])]
    ∧ ([("ab", [])] : DirListing).map Prod.fst ≠ ([("a", [98])] : DirListing).map Prod.fst := by
  refine ⟨by decide, by decide, by decide⟩

/-- `addUsage` leaves entries under other keys untouched. -/
theorem lookupUsage_addUsage_ne (m : List (String × List Nat × String))
    (key : String) (idx : Nat) (orig nd : String) (h : key ≠ nd) :
    lookupUsage (addUsage m key idx orig) nd = lookupUsage m nd := by
  induction m with
  | nil => simp [addUsage, lookupUsage, h]
  | cons e rest ih =>
      obtain ⟨k, is, o⟩ := e
      by_cases hk : k = key
      · subst hk
        simp [addUsage, lookupUsage, h]
      · by_cases hkn : k = nd <;> simp [addUsage, lookupUsage, hk, hkn, ih, Ne.symm h]

/-- `addUsage` appends the index under its own key, creating the entry (with
the original path) when absent. -/
theorem lookupUsage_addUsage_self (m : List (String × List Nat × String))
    (key : String) (idx : Nat) (orig : String) :
    lookupUsage (addUsage m key idx orig) key
      = match lookupUsage m key with
        | some (is, o) => some (is ++ [idx], o)
        | none => some ([idx], orig) := by
  induction m with
  | nil => simp [addUsage, lookupUsage]
  | cons e rest ih =>
      obtain ⟨k, is, o⟩ := e
      by_cases hk : k = key
      · subst hk
        simp [addUsage, lookupUsage]
      · simp [addUsage, lookupUsage, hk, ih]

/-- Characterization of the second-pass fold of `extract_common_dependencies`:
the entry under `nd` collects, in order, the indices of the processed pairs
whose normalized directory is `nd`, with the original path of the first such
pair. -/
theorem lookupUsage_foldl_stepUsage (pairs : List (Nat × String))
    (m : List (String × List Nat × String)) (nd : String) :
    lookupUsage (pairs.foldl stepUsage m) nd
      = match lookupUsage m nd, pairs.filter (fun pd => normalize_path pd.2 = nd) with
        | none, [] => none
        | none, q :: qs => some ((q :: qs).map Prod.fst, q.2)
        | some (is, o), qs => some (is ++ qs.map Prod.fst, o) := by
  induction pairs generalizing m with
  | nil =>
      rcases h : lookupUsage m nd with _ | ⟨is, o⟩ <;> simp [h]
  | cons pd rest ih =>
      simp only [List.foldl_cons, List.filter_cons]
      by_cases hnd : normalize_path pd.2 = nd
      · have hstep : lookupUsage (stepUsage m pd) nd
            = match lookupUsage m nd with
              | some (is, o) => some (is ++ [pd.1], o)
              | none => some ([pd.1], pd.2) := by
          unfold stepUsage
          rw [hnd]
          exact lookupUsage_addUsage_self m nd pd.1 pd.2
        rw [ih, hstep]
        rcases h : lookupUsage m nd with _ | ⟨is, o⟩ <;>
          simp [hnd, List.append_assoc]
      · have hstep : lookupUsage (stepUsage m pd) nd = lookupUsage m nd :=
          lookupUsage_addUsage_ne m (normalize_path pd.2) pd.1 pd.2 nd hnd
        rw [ih, hstep]
        simp [hnd]

/-- `addUsage` either keeps the key set or appends the new key at the end. -/
theorem keys_addUsage (m : List (String × List Nat × String))
    (key : String) (idx : Nat) (orig : String) :
    (addUsage m key idx orig).map Prod.fst
      = if key ∈ m.map Prod.fst then m.map Prod.fst else m.map Prod.fst ++ [key] := by
  induction m with
  | nil => simp [addUsage]
  | cons e rest ih =>
      obtain ⟨k, is, o⟩ := e
      by_cases hk : k = key
      · subst hk
        simp [addUsage]
      · by_cases hmem : key ∈ rest.map Prod.fst <;>
          simp [addUsage, hk, ih, hmem, Ne.symm hk]

/-- The second-pass fold keeps the key list duplicate-free. -/
theorem nodup_keys_foldl_stepUsage (pairs : List (Nat × String)) :
    ∀ (m : List (String × List Nat × String)), (m.map Prod.fst).Nodup →
      ((pairs.foldl stepUsage m).map Prod.fst).Nodup := by
  induction pairs with
  | nil => intro m h; simpa using h
  | cons pd rest ih =>
      intro m h
      simp only [List.foldl_cons]
      apply ih
      rw [stepUsage, keys_addUsage]
      by_cases hmem : normalize_path pd.2 ∈ m.map Prod.fst
      · simpa [hmem] using h
      · simp [hmem, List.nodup_append, h]

/-- Every entry of `addUsage m key idx orig` either shares its key and
original path with an entry of `m`, or is keyed `key` with original `orig`. -/
theorem mem_addUsage (key : String) (idx : Nat) (orig : String) :
    ∀ (m : List (String × List Nat × String)), ∀ e ∈ addUsage m key idx orig,
      (∃ f ∈ m, e.1 = f.1 ∧ e.2.2 = f.2.2) ∨ (e.1 = key ∧ e.2.2 = orig) := by
  intro m
  induction m with
  | nil =>
      intro e he
      simp [addUsage] at he
      subst he
      exact Or.inr ⟨rfl, rfl⟩
  | cons f rest ih =>
      obtain ⟨k, is, o⟩ := f
      intro e he
      by_cases hk : k = key
      · subst hk
        simp [addUsage] at he
        rcases he with he | he
        · subst he
          exact Or.inl ⟨(k, is, o), by simp, rfl, rfl⟩
        · exact Or.inl ⟨e, by simp [he], rfl, rfl⟩
      · simp [addUsage, hk] at he
        rcases he with he | he
        · subst he
          exact Or.inl ⟨(k, is, o), by simp, rfl, rfl⟩
        · rcases ih e he with ⟨f, hf, h1, h2⟩ | h
          · exact Or.inl ⟨f, by simp [hf], h1, h2⟩
          · exact Or.inr h

/-- Invariant of the `resource_usage` map: each entry's first-seen original
path normalizes to the entry's key. -/
theorem usage_orig_normalized (pairs : List (Nat × String)) :
    ∀ (m : List (String × List Nat × String)),
      (∀ e ∈ m, normalize_path e.2.2 = e.1) →
      ∀ e ∈ pairs.foldl stepUsage m, normalize_path e.2.2 = e.1 := by
  induction pairs with
  | nil => intro m h; simpa using h
  | cons pd rest ih =>
      intro m h
      simp only [List.foldl_cons]
      apply ih
      intro e he
      rcases mem_addUsage (normalize_path pd.2) pd.1 pd.2 m e he with ⟨f, hf, h1, h2⟩ | ⟨h1, h2⟩
      · rw [h2, h1]
        exact h f hf
      · rw [h2, h1]

/-- With duplicate-free keys, filtering by a predicate that holds on the entry
under `k` and forces the key `k` selects exactly that entry. -/
theorem filter_eq_singleton_of_lookup (k : String) (v : List Nat × String)
    (p : String × List Nat × String → Bool) (hp : p (k, v) = true) :
    ∀ (m : List (String × List Nat × String)), (m.map Prod.fst).Nodup →
      lookupUsage m k = some v → (∀ e ∈ m, p e = true → e.1 = k) →
      m.filter p = [(k, v)] := by
  intro m
  induction m with
  | nil =>
      intro _ hlook _
      simp [lookupUsage] at hlook
  | cons e rest ih =>
      obtain ⟨k0, v0⟩ := e
      intro hnd hlook hkey
      by_cases hk : k0 = k
      · subst hk
        have hv : v0 = v := by
          simpa [lookupUsage] using hlook
        subst hv
        have hrest : rest.filter p = [] := by
          rw [List.filter_eq_nil_iff]
          intro e he hpe
          have hek : e.1 = k0 := hkey e (by simp [he]) hpe
          have : k0 ∈ rest.map Prod.fst := hek ▸ List.mem_map_of_mem Prod.fst he
          exact (List.nodup_cons.mp (by simpa using hnd)).1 this
        simp [List.filter_cons, hp, hrest]
      · have hpe : p (k0, v0) = false := by
          cases hpp : p (k0, v0) with
          | false => rfl
          | true => exact absurd (hkey (k0, v0) (by simp) hpp) hk
        have hlook' : lookupUsage rest k = some v := by
          simpa [lookupUsage, hk] using hlook
        have := ih (List.nodup_cons.mp (by simpa using hnd)).2 hlook'
          (fun e he hpe => hkey e (by simp [he]) hpe)
        simp [List.filter_cons, hpe, this]

/-- Filtering the pairs of one configuration by normalized directory and
keeping the indices yields the index repeated once per occurrence. -/
theorem inner_pairs_filter (i : Nat) (dirs : List String) (nd : String) :
    (((dirs.map fun dir => (i, dir)).filter fun pd => normalize_path pd.2 = nd).map Prod.fst)
      = List.replicate ((dirs.map normalize_path).count nd) i := by
  induction dirs with
  | nil => simp
  | cons d ds ih =>
      by_cases h : normalize_path d = nd
      · simp [h, ih, List.count_cons, List.replicate_succ]
      · simp [h, ih, List.count_cons]

/-- Filtering all usage pairs by normalized directory and keeping the indices
yields, per configuration in order, its index repeated once per occurrence. -/
theorem usagePairs_filter_map_fst (nd : String) :
    ∀ (l : List (Nat × BuildConfig)),
      (((l.flatMap fun p => (additionalDirs p.2).map fun dir => (p.1, dir)).filter
          fun pd => normalize_path pd.2 = nd).map Prod.fst)
        = l.flatMap fun p =>
            List.replicate (((additionalDirs p.2).map normalize_path).count nd) p.1 := by
  intro l
  induction l with
  | nil => simp
  | cons p rest ih =>
      simp [List.flatMap_cons, List.filter_append, ih, inner_pairs_filter]

/-- Every index produced by `enumerate s l` lies in `[s, s + l.length)`. -/
theorem mem_enumerate (l : List α) :
    ∀ (s : Nat), ∀ p ∈ enumerate s l, s ≤ p.1 ∧ p.1 < s + l.length := by
  induction l with
  | nil => intro s p hp; simp [enumerate] at hp
  | cons a rest ih =>
      intro s p hp
      simp only [enumerate, List.mem_cons] at hp
      rcases hp with hp | hp
      · subst hp
        refine ⟨Nat.le_refl s, ?_⟩
        show s < s + (rest.length + 1)
        omega
      · have := ih (s + 1) p hp
        simp only [List.length_cons]
        omega

/-- A flat map of replications that are all zero is empty. -/
theorem flatMap_replicate_zero (cnt : Nat × α → Nat) :
    ∀ (L : List (Nat × α)), (∀ p ∈ L, cnt p = 0) →
      L.flatMap (fun p => List.replicate (cnt p) p.1) = [] := by
  intro L
  induction L with
  | nil => intro _; simp
  | cons p rest ih =>
      intro h
      simp [List.flatMap_cons, h p (by simp), ih fun q hq => h q (by simp [hq])]

/-- Enumerated replication concentrated on one in-range index `t` with
multiplicity `m` flattens to `replicate m t`. -/
theorem enumerate_flatMap_single (t m : Nat) :
    ∀ (l : List α) (s : Nat) (cnt : Nat × α → Nat),
      (∀ p ∈ enumerate s l, cnt p = if p.1 = t then m else 0) →
      s ≤ t → t < s + l.length →
      (enumerate s l).flatMap (fun p => List.replicate (cnt p) p.1)
        = List.replicate m t := by
  intro l
  induction l with
  | nil =>
      intro s cnt _ hs ht
      simp only [List.length_nil] at ht
      omega
  | cons a rest ih =>
      intro s cnt h hs ht
      simp only [enumerate, List.flatMap_cons]
      by_cases hst : s = t
      · subst hst
        have hhead : cnt (s, a) = m := by
          rw [h (s, a) (by simp [enumerate])]
          simp
        rw [hhead]
        have htail : (enumerate (s + 1) rest).flatMap
            (fun p => List.replicate (cnt p) p.1) = [] := by
          apply flatMap_replicate_zero
          intro p hp
          have hb := mem_enumerate rest (s + 1) p hp
          rw [h p (by simp [enumerate, hp])]
          have : p.1 ≠ s := by omega
          simp [this]
        rw [htail, List.append_nil]
      · have hhead : cnt (s, a) = 0 := by
          rw [h (s, a) (by simp [enumerate])]
          simp [hst]
        rw [hhead]
        simp only [List.replicate_zero, List.nil_append]
        exact ih (s + 1) cnt (fun p hp => h p (by simp [enumerate, hp])) (by omega)
          (by simp only [List.length_cons] at ht; omega)

/-- Enumerated replication concentrated on two in-range indices `i < j` with
multiplicities `m1`, `m2` flattens to `replicate m1 i ++ replicate m2 j`. -/
theorem enumerate_flatMap_pair (i j m1 m2 : Nat) (hij : i < j) :
    ∀ (l : List α) (s : Nat) (cnt : Nat × α → Nat),
      (∀ p ∈ enumerate s l, cnt p = if p.1 = i then m1 else if p.1 = j then m2 else 0) →
      s ≤ i → j < s + l.length →
      (enumerate s l).flatMap (fun p => List.replicate (cnt p) p.1)
        = List.replicate m1 i ++ List.replicate m2 j := by
  intro l
  induction l with
  | nil =>
      intro s cnt _ hs ht
      simp only [List.length_nil] at ht
      omega
  | cons a rest ih =>
      intro s cnt h hs ht
      simp only [enumerate, List.flatMap_cons]
      by_cases hsi : s = i
      · subst hsi
        have hhead : cnt (s, a) = m1 := by
          rw [h (s, a) (by simp [enumerate])]
          simp
        rw [hhead]
        have htail : (enumerate (s + 1) rest).flatMap
            (fun p => List.replicate (cnt p) p.1) = List.replicate m2 j := by
          apply enumerate_flatMap_single j m2 rest (s + 1) cnt
          · intro p hp
            have hb := mem_enumerate rest (s + 1) p hp
            rw [h p (by simp [enumerate, hp])]
            have : p.1 ≠ s := by omega
            simp [this]
          · omega
          · simp only [List.length_cons] at ht
            omega
        rw [htail]
      · have hhead : cnt (s, a) = 0 := by
          rw [h (s, a) (by simp [enumerate])]
          have h1 : s ≠ i := hsi
          have h2 : s ≠ j := by omega
          simp [h1, h2]
        rw [hhead]
        simp only [List.replicate_zero, List.nil_append]
        exact ih (s + 1) cnt (fun p hp => h p (by simp [enumerate, hp])) (by omega)
          (by simp only [List.length_cons] at ht; omega)

/-- `usageToDep` preserves the entry's normalized key: whichever branch is
taken, the reported directory normalizes to the entry's key. -/
theorem normalize_usageToDep (configs : List BuildConfig)
    (e : String × List Nat × String) (he : normalize_path e.2.2 = e.1) :
    normalize_path (usageToDep configs e).resource_dir = e.1 := by
  unfold usageToDep
  rcases hf : configs.find? (fun c => normalize_path c.resource_dir = e.1) with _ | c
  · simpa [hf] using he
  · have hc := List.find?_some hf
    simp only [decide_eq_true_eq] at hc
    simpa [hf] using hc

/-- Core of C7 and C10: when the usage pairs filtered at normalized key `nd`
carry the index list `inds` with at least two elements, the extractor's
output filtered at `nd` is exactly one `CommonDependency` whose
`dependent_configs` is `inds`. -/
theorem extract_filter_by_key (configs : List BuildConfig) (nd : String) (inds : List Nat)
    (hlen : 2 ≤ configs.length) (hlen2 : 1 < inds.length)
    (hfmap : (((usagePairs configs).filter fun pd => normalize_path pd.2 = nd).map Prod.fst)
      = inds) :
    ((extract_common_dependencies configs).filter
        fun cd => normalize_path cd.resource_dir = nd).map
      CommonDependency.dependent_configs = [inds] := by
  rcases hflt : (usagePairs configs).filter (fun pd => normalize_path pd.2 = nd) with _ | ⟨q, qs⟩
  · rw [hflt] at hfmap
    simp only [List.map_nil] at hfmap
    rw [← hfmap] at hlen2
    simp at hlen2
  · rw [hflt] at hfmap
    have hlook : lookupUsage (resourceUsage configs) nd = some (inds, q.2) := by
      unfold resourceUsage
      rw [lookupUsage_foldl_stepUsage, hflt]
      simp [lookupUsage, hfmap]
    have hq : normalize_path q.2 = nd := by
      have hmem : q ∈ (usagePairs configs).filter (fun pd => normalize_path pd.2 = nd) := by
        rw [hflt]
        exact List.mem_cons_self q qs
      simpa using (List.mem_filter.mp hmem).2
    have hinv : ∀ e ∈ resourceUsage configs, normalize_path e.2.2 = e.1 :=
      usage_orig_normalized (usagePairs configs) [] (by simp)
    have hnodup : ((resourceUsage configs).map Prod.fst).Nodup :=
      nodup_keys_foldl_stepUsage (usagePairs configs) [] (by simp)
    have hne : ¬ configs.length ≤ 1 := by omega
    unfold extract_common_dependencies
    rw [if_neg hne]
    rw [List.filter_map, List.filter_filter]
    have hsing := filter_eq_singleton_of_lookup nd (inds, q.2)
      (fun e => ((fun cd => decide (normalize_path cd.resource_dir = nd)) ∘ usageToDep configs) e
        && decide (1 < e.2.1.length))
      (by
        simp only [Function.comp_apply, Bool.and_eq_true, decide_eq_true_eq]
        constructor
        · exact normalize_usageToDep configs (nd, (inds, q.2)) hq
        · exact hlen2)
      (resourceUsage configs) hnodup hlook
      (by
        intro e he hpe
        simp only [Function.comp_apply, Bool.and_eq_true, decide_eq_true_eq] at hpe
        rw [← hpe.1]
        exact (normalize_usageToDep configs e (hinv e he)).symm)
    rw [hsing]
    simp [usageToDep]

/-- C7: `extract_common_dependencies` returns the empty list for 0 or 1
configurations; and for `N ≥ 2` configurations where exactly the two
configurations `i < j` declare the (normalized) directory `d` in their
additional-resource lists, once each, it returns exactly one
`CommonDependency` for that directory, whose `dependent_configs` is exactly
`[i, j]`. -/
theorem extract_common_dependencies_shared_pair (configs : List BuildConfig) (d : String)
    (i j : Nat) (hlen : 2 ≤ configs.length) (hij : i < j) (hj : j < configs.length)
    (hocc : ∀ p ∈ enumerate 0 configs,
      ((additionalDirs p.2).map normalize_path).count (normalize_path d)
        = if p.1 = i then 1 else if p.1 = j then 1 else 0) :
    ((extract_common_dependencies configs).filter
        fun cd => normalize_path cd.resource_dir = normalize_path d).map
      CommonDependency.dependent_configs = [[i, j]]
    ∧ ∀ cs : List BuildConfig, cs.length ≤ 1 → extract_common_dependencies cs = [] := by
  constructor
  · apply extract_filter_by_key configs (normalize_path d) [i, j] hlen (by simp)
    unfold usagePairs
    rw [usagePairs_filter_map_fst]
    have := enumerate_flatMap_pair i j 1 1 hij configs 0
      (fun p => ((additionalDirs p.2).map normalize_path).count (normalize_path d))
      hocc (by omega) (by simpa using hj)
    simpa using this
  · intro cs h
    unfold extract_common_dependencies
    rw [if_pos h]

/-- Witness for C7: two configurations sharing the additional directory
"shared/res". -/
theorem extract_common_dependencies_shared_pair_witness :
    ((extract_common_dependencies
        [⟨"a/res", some ["shared/res"], "com.a"⟩,
         ⟨"b/res", some ["shared/res"], "com.b"⟩]).filter
      fun cd => normalize_path cd.resource_dir = normalize_path "shared/res").map
      CommonDependency.dependent_configs = [[0, 1]] :=
  (extract_common_dependencies_shared_pair
    [⟨"a/res", some ["shared/res"], "com.a"⟩, ⟨"b/res", some ["shared/res"], "com.b"⟩]
    "shared/res" 0 1 (by decide) (by decide) (by decide) (by decide)).1

/-- C10: `extract_common_dependencies` counts occurrences of a normalized
directory, not distinct referencing configurations: when the single
configuration `i` lists the (normalized) directory `d` twice in its
additional-resource list and no other configuration lists it, the directory
is still reported as a `CommonDependency` — with `dependent_configs` equal to
`[i, i]`, configuration `i`'s index twice. -/
theorem extract_common_dependencies_counts_occurrences (configs : List BuildConfig)
    (d : String) (i : Nat) (hlen : 2 ≤ configs.length) (hi : i < configs.length)
    (hocc : ∀ p ∈ enumerate 0 configs,
      ((additionalDirs p.2).map normalize_path).count (normalize_path d)
        = if p.1 = i then 2 else 0) :
    ((extract_common_dependencies configs).filter
        fun cd => normalize_path cd.resource_dir = normalize_path d).map
      CommonDependency.dependent_configs = [[i, i]] := by
  apply extract_filter_by_key configs (normalize_path d) [i, i] hlen (by simp)
  unfold usagePairs
  rw [usagePairs_filter_map_fst]
  have := enumerate_flatMap_single i 2 configs 0
    (fun p => ((additionalDirs p.2).map normalize_path).count (normalize_path d))
    hocc (by omega) (by simpa using hi)
  simpa using this

/-- Witness for C10: the second configuration lists "shared/res" twice; the
first does not list it at all. -/
theorem extract_common_dependencies_counts_occurrences_witness :
    ((extract_common_dependencies
        [⟨"a/res", none, "com.a"⟩,
         ⟨"b/res", some ["shared/res", "shared/res"], "com.b"⟩]).filter
      fun cd => normalize_path cd.resource_dir = normalize_path "shared/res").map
      CommonDependency.dependent_configs = [[1, 1]] :=
  extract_common_dependencies_counts_occurrences
    [⟨"a/res", none, "com.a"⟩, ⟨"b/res", some ["shared/res", "shared/res"], "com.b"⟩]
    "shared/res" 1 (by decide) (by decide) (by decide)

/-- Occurrence is preserved by prepending. -/
theorem containsStr_append_left (t s sub : String) (h : containsStr s sub) :
    containsStr (t ++ s) sub := by
  obtain ⟨pre, post, rfl⟩ := h
  exact ⟨t ++ pre, post, by simp [String.append_assoc]⟩

/-- Occurrence is preserved by appending. -/
theorem containsStr_append_right (s t sub : String) (h : containsStr s sub) :
    containsStr (s ++ t) sub := by
  obtain ⟨pre, post, rfl⟩ := h
  exact ⟨pre, post ++ t, by simp [String.append_assoc]⟩

/-- Every listed directory occurs in the concatenation of its
`"  - <dir>\n"` lines. -/
theorem concat_lines_contains (dp : String) :
    ∀ (l : List String), dp ∈ l →
      containsStr (concatStrings (l.map fun dir => "  - " ++ dir ++ "\n")) dp := by
  intro l
  induction l with
  | nil => intro h; simp at h
  | cons d rest ih =>
      intro h
      simp only [List.map_cons, concatStrings]
      rcases List.mem_cons.mp h with h | h
      · subst h
        exact ⟨"  - ", "\n" ++ concatStrings (rest.map fun dir => "  - " ++ dir ++ "\n"),
          by simp [String.append_assoc]⟩
      · exact containsStr_append_left _ _ _ (ih h)

/-- The "no resources" error message names every missing directory. -/
theorem noResourcesError_contains (missing : List String) (dp : String) (h : dp ∈ missing) :
    containsStr (noResourcesError missing) dp := by
  have hne : missing.isEmpty = false := by
    cases missing with
    | nil => cases h
    | cons a l => rfl
  unfold noResourcesError missingDirsBlock
  rw [hne]
  simp only [Bool.false_eq_true, if_false]
  apply containsStr_append_right
  apply containsStr_append_left
  apply containsStr_append_right
  apply containsStr_append_left
  exact concat_lines_contains dp missing h

/-- Full characterization of the compile-loop fold: compiled entries come
from the existing directories with files (in order), missing directories are
recorded in order, valid directories are the existing ones in order. -/
theorem collectStep_foldl (dirExists : String → Bool) (filesOf compileDir : String → List String) :
    ∀ (entries : List DirEntry) (st0 : CollectState),
      entries.foldl (collectStep dirExists filesOf compileDir) st0
        = ⟨st0.flat ++ ((entries.filter fun e => dirExists e.dir && !(filesOf e.dir).isEmpty).map
              fun e => ⟨e.priority, compileDir e.dir, e.dir⟩),
           st0.missing ++ ((entries.filter fun e => !dirExists e.dir).map DirEntry.dir),
           st0.valid ++ ((entries.filter fun e => dirExists e.dir).map DirEntry.dir)⟩ := by
  intro entries
  induction entries with
  | nil => intro st0; simp
  | cons e rest ih =>
      intro st0
      simp only [List.foldl_cons, List.filter_cons]
      by_cases hex : dirExists e.dir
      · by_cases hemp : (filesOf e.dir).isEmpty
        · rw [show collectStep dirExists filesOf compileDir st0 e
              = { st0 with valid := st0.valid ++ [e.dir] } by
            simp [collectStep, hex, hemp]]
          rw [ih]
          simp [hex, hemp, List.append_assoc]
        · rw [show collectStep dirExists filesOf compileDir st0 e
              = { st0 with
                    flat := st0.flat ++ [⟨e.priority, compileDir e.dir, e.dir⟩],
                    valid := st0.valid ++ [e.dir] } by
            simp [collectStep, hex, hemp]]
          rw [ih]
          simp [hex, hemp, List.append_assoc]
      · rw [show collectStep dirExists filesOf compileDir st0 e
            = { st0 with missing := st0.missing ++ [e.dir] } by
          simp [collectStep, hex]]
        rw [ih]
        simp [hex, List.append_assoc]

/-- C8: missing resource directories are recorded (in order) in
`missing_dirs` and contribute no compiled artifact set; when nothing at all
compiled, the build returns a failed `BuildResult` whose single error message
names every missing directory path; when something compiled, the
missing-directory scan does not fail the build (it proceeds to linking). -/
theorem build_missing_dirs (dirExists : String → Bool)
    (filesOf compileDir : String → List String) (entries : List DirEntry) :
    (collectCompiled dirExists filesOf compileDir entries).missing
        = (entries.filter fun e => !dirExists e.dir).map DirEntry.dir
    ∧ (∀ pe ∈ (collectCompiled dirExists filesOf compileDir entries).flat,
        dirExists pe.dir = true)
    ∧ (totalFlatFiles (collectCompiled dirExists filesOf compileDir entries).flat = 0 →
        buildEarlyResult dirExists filesOf compileDir entries
            = some ⟨false, none,
                [noResourcesError (collectCompiled dirExists filesOf compileDir entries).missing]⟩
          ∧ ∀ dp ∈ (collectCompiled dirExists filesOf compileDir entries).missing,
              containsStr
                (noResourcesError (collectCompiled dirExists filesOf compileDir entries).missing)
                dp)
    ∧ (totalFlatFiles (collectCompiled dirExists filesOf compileDir entries).flat ≠ 0 →
        buildEarlyResult dirExists filesOf compileDir entries = none) := by
  refine ⟨?_, ?_, ?_, ?_⟩
  · rw [collectCompiled, collectStep_foldl]
    simp
  · rw [collectCompiled, collectStep_foldl]
    intro pe hpe
    simp only [List.nil_append, List.mem_map, List.mem_filter, Bool.and_eq_true] at hpe
    obtain ⟨e, ⟨_, hex, _⟩, hpe⟩ := hpe
    rw [← hpe]
    exact hex
  · intro h0
    refine ⟨?_, ?_⟩
    · rw [buildEarlyResult]
      simp only [h0, if_pos]
    · intro dp hdp
      exact noResourcesError_contains _ dp hdp
  · intro h0
    rw [buildEarlyResult]
    simp only [if_neg h0]

/-- Witness for C8: a single configured directory that is missing on disk;
nothing compiles and the failed result's message names the directory. -/
theorem build_missing_dirs_witness :
    buildEarlyResult (fun _ => false) (fun _ => []) (fun _ => [])
        [⟨"missing/res", ResourcePriority.Main, "main"⟩]
      = some ⟨false, none,
          [noResourcesError (collectCompiled (fun _ => false) (fun _ => []) (fun _ => [])
              [⟨"missing/res", ResourcePriority.Main, "main"⟩]).missing]⟩
    ∧ ∀ dp ∈ (collectCompiled (fun _ => false) (fun _ => []) (fun _ => [])
          [⟨"missing/res", ResourcePriority.Main, "main"⟩]).missing,
        containsStr
          (noResourcesError (collectCompiled (fun _ => false) (fun _ => []) (fun _ => [])
              [⟨"missing/res", ResourcePriority.Main, "main"⟩]).missing)
          dp :=
  (build_missing_dirs (fun _ => false) (fun _ => []) (fun _ => [])
      [⟨"missing/res", ResourcePriority.Main, "main"⟩]).2.2.1 (by rfl)

/-- `getD` after `set`: the written value inside bounds, otherwise
unchanged. -/
theorem getD_set_spec (l : List Nat) (i x w : Nat) :
    (l.set i w).getD x 0 = if i = x ∧ i < l.length then w else l.getD x 0 := by
  rw [List.getD_eq_getElem?_getD, List.getD_eq_getElem?_getD, List.getElem?_set]
  by_cases h1 : i = x
  · subst h1
    by_cases h2 : i < l.length
    · simp [h2]
    · rw [List.getElem?_eq_none (by omega)]
      simp [h2]
  · simp [h1]

/-- An out-of-range `getD` with default `0` is `0`. -/
theorem getD_zero_of_le (l : List Nat) (x : Nat) (h : l.length ≤ x) :
    l.getD x 0 = 0 :=
  List.getD_eq_default l 0 h

/-- Unfolding equation of `decrementAll` on a cons. -/
theorem decrementAll_cons_eq (inDeg : List Nat) (d : Nat) (ds : List Nat) :
    decrementAll inDeg (d :: ds)
      = if inDeg.getD d 0 = 1 then
          ((decrementAll (inDeg.set d (inDeg.getD d 0 - 1)) ds).1,
           d :: (decrementAll (inDeg.set d (inDeg.getD d 0 - 1)) ds).2)
        else decrementAll (inDeg.set d (inDeg.getD d 0 - 1)) ds :=
  rfl

/-- The in-degree component of `decrementAll` on a cons: the branch on the
enqueue check does not affect it. -/
theorem decrementAll_fst (inDeg : List Nat) (d : Nat) (ds : List Nat) :
    (decrementAll inDeg (d :: ds)).1
      = (decrementAll (inDeg.set d (inDeg.getD d 0 - 1)) ds).1 := by
  rw [decrementAll_cons_eq]
  split <;> rfl

/-- The enqueued component of `decrementAll` on a cons. -/
theorem decrementAll_snd (inDeg : List Nat) (d : Nat) (ds : List Nat) :
    (decrementAll inDeg (d :: ds)).2
      = if inDeg.getD d 0 = 1 then
          d :: (decrementAll (inDeg.set d (inDeg.getD d 0 - 1)) ds).2
        else (decrementAll (inDeg.set d (inDeg.getD d 0 - 1)) ds).2 := by
  rw [decrementAll_cons_eq]
  split <;> rfl

/-- `decrementAll` keeps the in-degree vector's length. -/
theorem decrementAll_length (ds : List Nat) :
    ∀ (inDeg : List Nat), (decrementAll inDeg ds).1.length = inDeg.length := by
  induction ds with
  | nil => intro inDeg; rfl
  | cons d rest ih =>
      intro inDeg
      rw [decrementAll_fst, ih, List.length_set]

/-- `decrementAll` subtracts, at every position, the number of occurrences of
that position in the processed list (saturating at zero, which matches the
unreachable-underflow analysis in the definition's comment). -/
theorem decrementAll_getD (ds : List Nat) :
    ∀ (inDeg : List Nat) (x : Nat),
      (decrementAll inDeg ds).1.getD x 0 = inDeg.getD x 0 - ds.count x := by
  induction ds with
  | nil => intro inDeg x; simp [decrementAll]
  | cons d rest ih =>
      intro inDeg x
      rw [decrementAll_fst, ih, getD_set_spec, List.count_cons]
      by_cases hdx : d = x
      · subst hdx
        by_cases hdl : d < inDeg.length
        · simp [hdl]
          omega
        · rw [getD_zero_of_le inDeg d (by omega)]
          simp [hdl]
      · simp [hdx, Ne.symm hdx]

/-- Membership in `decrementAll`'s freshly-enqueued list: exactly the
positions whose current value is at least 1 and at most their number of
occurrences (those that pass through the value 1). -/
theorem decrementAll_mem (ds : List Nat) :
    ∀ (inDeg : List Nat) (x : Nat),
      x ∈ (decrementAll inDeg ds).2
        ↔ (1 ≤ inDeg.getD x 0 ∧ inDeg.getD x 0 ≤ ds.count x) := by
  induction ds with
  | nil =>
      intro inDeg x
      simp [decrementAll]
      omega
  | cons d rest ih =>
      intro inDeg x
      have hnext := ih (inDeg.set d (inDeg.getD d 0 - 1)) x
      rw [getD_set_spec] at hnext
      rw [decrementAll_snd]
      by_cases hdx : d = x
      · subst hdx
        by_cases hdl : d < inDeg.length
        · rw [if_pos (⟨rfl, hdl⟩ : d = d ∧ d < inDeg.length)] at hnext
          have hcnt : (d :: rest).count d = rest.count d + 1 := by
            rw [List.count_cons]
            simp
          rw [hcnt]
          by_cases h1 : inDeg.getD d 0 = 1
          · rw [if_pos h1]
            simp only [List.mem_cons, true_or, true_iff]
            omega
          · rw [if_neg h1, hnext]
            omega
        · have hcond : ¬ (d = d ∧ d < inDeg.length) := by simp [hdl]
          rw [if_neg hcond] at hnext
          have h0 : inDeg.getD d 0 = 0 := getD_zero_of_le inDeg d (by omega)
          rw [if_neg (by omega : ¬ inDeg.getD d 0 = 1), hnext, h0]
          simp
      · have hcnt : (d :: rest).count x = rest.count x := by
          rw [List.count_cons]
          simp [hdx]
        have hcond : ¬ (d = x ∧ d < inDeg.length) := fun hc => hdx hc.1
        rw [if_neg hcond] at hnext
        rw [hcnt]
        by_cases h1 : inDeg.getD d 0 = 1
        · rw [if_pos h1]
          simp only [List.mem_cons]
          rw [hnext]
          simp [Ne.symm hdx]
        · rw [if_neg h1, hnext]

/-- The freshly-enqueued list of `decrementAll` has no duplicates: a position
is enqueued only as its value passes 1, and values never increase. -/
theorem decrementAll_nodup (ds : List Nat) :
    ∀ (inDeg : List Nat), (decrementAll inDeg ds).2.Nodup := by
  induction ds with
  | nil => intro inDeg; simp [decrementAll]
  | cons d rest ih =>
      intro inDeg
      rw [decrementAll_snd]
      by_cases h1 : inDeg.getD d 0 = 1
      · rw [if_pos h1]
        refine List.nodup_cons.mpr ⟨?_, ih _⟩
        intro hmem
        have hdl : d < inDeg.length := by
          by_contra hc
          rw [getD_zero_of_le inDeg d (by omega)] at h1
          omega
        have hm := (decrementAll_mem rest _ d).mp hmem
        rw [getD_set_spec] at hm
        rw [if_pos (⟨rfl, hdl⟩ : d = d ∧ d < inDeg.length)] at hm
        omega
      · rw [if_neg h1]
        exact ih _

/-- Counting inside a flat map of replications over a duplicate-free list. -/
theorem count_flatMap_replicate (cnt : Nat → Nat) :
    ∀ (l : List Nat), l.Nodup → ∀ (x : Nat),
      (l.flatMap fun u => List.replicate (cnt u) u).count x
        = if x ∈ l then cnt x else 0 := by
  intro l
  induction l with
  | nil => intro _ x; simp
  | cons u rest ih =>
      intro hnd x
      have hnd' := List.nodup_cons.mp hnd
      rw [List.flatMap_cons, List.count_append, List.count_replicate, ih hnd'.2 x]
      by_cases hxu : x = u
      · subst hxu
        simp [hnd'.1]
      · simp [hxu, Ne.symm hxu]

/-- The multiplicity of dependent `x` in node `d`'s adjacency list is the
multiplicity of `d` among `x`'s dependencies (for in-range `x`). -/
theorem count_adjOf (n : Nat) (deps : Nat → List Nat) (d x : Nat) :
    (adjOf n deps d).count x = if x < n then (deps x).count d else 0 := by
  unfold adjOf
  rw [count_flatMap_replicate (fun u => (deps u).count d) (List.range n) (List.nodup_range n) x]
  simp [List.mem_range]

/-- Splitting a `countP` of "not yet sorted" when one more node is appended
to `sorted`: the occurrences of that node move out. -/
theorem countP_notmem_concat (sorted : List Nat) (node : Nat) (hnode : node ∉ sorted) :
    ∀ (l : List Nat),
      l.countP (fun y => !(decide (y ∈ sorted)))
        = l.countP (fun y => !(decide (y ∈ sorted ++ [node]))) + l.count node := by
  intro l
  induction l with
  | nil => simp
  | cons y rest ih =>
      rw [List.countP_cons, List.countP_cons, List.count_cons, ih]
      have hf : ¬ (false = true) := by simp
      by_cases hmem : y ∈ sorted
      · have p1 : (!(decide (y ∈ sorted))) = false := by simp [hmem]
        have p2 : (!(decide (y ∈ sorted ++ [node]))) = false := by simp [hmem]
        have p3 : (y == node) = false := by
          have hne : y ≠ node := fun h => hnode (h ▸ hmem)
          simp [hne]
        simp only [p1, p2, p3, if_neg hf]
        omega
      · by_cases hyn : y = node
        · have p1 : (!(decide (y ∈ sorted))) = true := by simp [hmem]
          have p2 : (!(decide (y ∈ sorted ++ [node]))) = false := by simp [hyn]
          have p3 : (y == node) = true := by simp [hyn]
          simp only [p1, p2, p3, if_neg hf, if_pos rfl]
          omega
        · have p1 : (!(decide (y ∈ sorted))) = true := by simp [hmem]
          have p2 : (!(decide (y ∈ sorted ++ [node]))) = true := by simp [hmem, hyn]
          have p3 : (y == node) = false := by simp [hyn]
          simp only [p1, p2, p3, if_neg hf, if_pos rfl]
          omega

/-- A duplicate-free list of `n` distinct values below `n`, of length at
least `n`, contains every value below `n`. -/
theorem full_of_length (n : Nat) (l : List Nat) (hnd : l.Nodup)
    (hlt : ∀ x ∈ l, x < n) (hlen : n ≤ l.length) :
    ∀ x, x < n → x ∈ l := by
  intro x hx
  have hsub : l.toFinset ⊆ Finset.range n := by
    intro a ha
    rw [List.mem_toFinset] at ha
    exact Finset.mem_range.mpr (hlt a ha)
  have hcard : (Finset.range n).card ≤ l.toFinset.card := by
    rw [Finset.card_range, List.toFinset_card_of_nodup hnd]
    exact hlen
  have heq := Finset.eq_of_subset_of_card_le hsub hcard
  have : x ∈ l.toFinset := by
    rw [heq]
    exact Finset.mem_range.mpr hx
  exact List.mem_toFinset.mp this

/-- Splitting a list that ends in one appended element: the split point is
either the appended element or inside the original list. -/
theorem split_of_concat_eq (l : List Nat) (a : Nat) (s1 : List Nat) (x : Nat) (s2 : List Nat)
    (h : l ++ [a] = s1 ++ x :: s2) :
    (s2 = [] ∧ s1 = l ∧ x = a) ∨ ∃ s2', s2 = s2' ++ [a] ∧ l = s1 ++ x :: s2' := by
  rcases List.eq_nil_or_concat s2 with rfl | ⟨s2', b, rfl⟩
  · have := List.append_inj' h (by simp)
    obtain ⟨h1, h2⟩ := this
    exact Or.inl ⟨rfl, h1.symm, (by simpa using h2.symm)⟩
  · rw [List.concat_eq_append] at h
    have hre : s1 ++ x :: (s2' ++ [b]) = (s1 ++ x :: s2') ++ [b] := by simp
    rw [hre] at h
    have := List.append_inj' h (by simp)
    obtain ⟨h1, h2⟩ := this
    have hb : a = b := by simpa using h2
    subst hb
    exact Or.inr ⟨s2', by simp [List.concat_eq_append], h1⟩

/-- One iteration of Kahn's loop preserves the invariant: pop `node`,
decrement its dependents, append the newly-zero nodes to the queue and
`node` to `sorted`. -/
theorem kahn_inv_step (n : Nat) (deps : Nat → List Nat)
    (inDeg : List Nat) (node : Nat) (rest sorted : List Nat)
    (inv : KahnInv n deps inDeg (node :: rest) sorted) :
    KahnInv n deps (decrementAll inDeg (adjOf n deps node)).1
      (rest ++ (decrementAll inDeg (adjOf n deps node)).2)
      (sorted ++ [node]) := by
  obtain ⟨hlen, hdeg, hqn, hsn, hdisj, hqlt, hslt, hstuck, hqzero, hqdeps, hsound⟩ := inv
  have hnlt : node < n := hqlt node (List.mem_cons_self node rest)
  have hnzero : inDeg.getD node 0 = 0 := hqzero node (List.mem_cons_self node rest)
  have hndeps : ∀ y ∈ deps node, y ∈ sorted := hqdeps node (List.mem_cons_self node rest)
  have hnnotin : node ∉ sorted := hdisj node (List.mem_cons_self node rest)
  have hnodup_nr := List.nodup_cons.mp hqn
  set adj := adjOf n deps node with hadj
  set dec := decrementAll inDeg adj with hdec
  have hT : ∀ x, adj.count x = if x < n then (deps x).count node else 0 :=
    fun x => count_adjOf n deps node x
  have hget : ∀ x, dec.1.getD x 0 = inDeg.getD x 0 - adj.count x :=
    fun x => decrementAll_getD adj inDeg x
  have hmemQ : ∀ x, x ∈ dec.2 ↔ (1 ≤ inDeg.getD x 0 ∧ inDeg.getD x 0 ≤ adj.count x) :=
    fun x => decrementAll_mem adj inDeg x
  have hcle : ∀ x, x < n → (deps x).count node ≤ inDeg.getD x 0 := by
    intro x hx
    rw [hdeg x hx, countP_notmem_concat sorted node hnnotin (deps x)]
    omega
  have hsorted_zero : ∀ x ∈ sorted, inDeg.getD x 0 = 0 := by
    intro x hx
    obtain ⟨s1, s2, hsp⟩ := List.mem_iff_append.mp hx
    have hx_lt : x < n := hslt x hx
    rw [hdeg x hx_lt, List.countP_eq_zero]
    intro y hy
    have hy1 : y ∈ s1 := hsound s1 x s2 hsp y hy
    have : y ∈ sorted := by
      rw [hsp]
      exact List.mem_append.mpr (Or.inl hy1)
    simp [this]
  have hmemQlt : ∀ x ∈ dec.2, x < n := by
    intro x hx
    by_contra hc
    have h1 := (hmemQ x).mp hx
    rw [hT x] at h1
    simp [hc] at h1
    omega
  have hmemQ_eq : ∀ x ∈ dec.2, inDeg.getD x 0 = (deps x).count node := by
    intro x hx
    have h1 := (hmemQ x).mp hx
    have hxlt := hmemQlt x hx
    rw [hT x, if_pos hxlt] at h1
    have h2 := hcle x hxlt
    omega
  have hmemQ_notsorted : ∀ x ∈ dec.2, x ∉ sorted := by
    intro x hx hxs
    have h1 := (hmemQ x).mp hx
    rw [hsorted_zero x hxs] at h1
    omega
  have hmemQ_nenode : ∀ x ∈ dec.2, x ≠ node := by
    intro x hx hxe
    have h1 := (hmemQ x).mp hx
    rw [hxe, hnzero] at h1
    omega
  have hmemQ_notrest : ∀ x ∈ dec.2, x ∉ rest := by
    intro x hx hxr
    have h1 := (hmemQ x).mp hx
    rw [hqzero x (List.mem_cons_of_mem node hxr)] at h1
    omega
  have hdeg2 : ∀ x, x < n →
      dec.1.getD x 0 = (deps x).countP fun y => !(decide (y ∈ sorted ++ [node])) := by
    intro x hx
    rw [hget x, hT x, if_pos hx, hdeg x hx, countP_notmem_concat sorted node hnnotin (deps x)]
    omega
  have hqzero2 : ∀ x ∈ rest ++ dec.2, dec.1.getD x 0 = 0 := by
    intro x hx
    rcases List.mem_append.mp hx with hx | hx
    · rw [hget x, hqzero x (List.mem_cons_of_mem node hx)]
      omega
    · rw [hget x, hmemQ_eq x hx, hT x, if_pos (hmemQlt x hx)]
      omega
  refine ⟨(decrementAll_length adj inDeg).trans hlen, hdeg2, ?_, ?_, ?_, ?_, ?_, ?_, hqzero2, ?_, ?_⟩
  · rw [List.nodup_append]
    exact ⟨hnodup_nr.2, decrementAll_nodup adj inDeg,
      fun a ha ha2 => hmemQ_notrest a ha2 ha⟩
  · rw [List.nodup_append]
    refine ⟨hsn, List.nodup_singleton node, ?_⟩
    intro a ha hb
    rw [List.mem_singleton] at hb
    exact hnnotin (hb ▸ ha)
  · intro x hx hmem'
    rcases List.mem_append.mp hmem' with hs | hs
    · rcases List.mem_append.mp hx with hx | hx
      · exact hdisj x (List.mem_cons_of_mem node hx) hs
      · exact hmemQ_notsorted x hx hs
    · rw [List.mem_singleton] at hs
      rcases List.mem_append.mp hx with hx | hx
      · exact hnodup_nr.1 (hs ▸ hx)
      · exact hmemQ_nenode x hx hs
  · intro x hx
    rcases List.mem_append.mp hx with hx | hx
    · exact hqlt x (List.mem_cons_of_mem node hx)
    · exact hmemQlt x hx
  · intro x hx
    rcases List.mem_append.mp hx with hx | hx
    · exact hslt x hx
    · rw [List.mem_singleton] at hx
      exact hx ▸ hnlt
  · intro x hx hxs hxq
    have hxs0 : x ∉ sorted := fun hc => hxs (List.mem_append.mpr (Or.inl hc))
    have hxn : x ≠ node := fun hc => hxs (List.mem_append.mpr (Or.inr (by simp [hc])))
    have hxr : x ∉ rest := fun hc => hxq (List.mem_append.mpr (Or.inl hc))
    have hxq2 : x ∉ dec.2 := fun hc => hxq (List.mem_append.mpr (Or.inr hc))
    have hx1 : inDeg.getD x 0 ≠ 0 := by
      apply hstuck x hx hxs0
      intro hc
      rcases List.mem_cons.mp hc with hc | hc
      · exact hxn hc
      · exact hxr hc
    have hx2 := (hmemQ x).not.mp hxq2
    rw [hget x]
    intro hc
    rw [not_and] at hx2
    have := hx2 (by omega)
    omega
  · intro x hx y hy
    rcases List.mem_append.mp hx with hx | hx
    · exact List.mem_append.mpr (Or.inl (hqdeps x (List.mem_cons_of_mem node hx) y hy))
    · have hxlt := hmemQlt x hx
      have h0 := hqzero2 x (List.mem_append.mpr (Or.inr hx))
      rw [hdeg2 x hxlt] at h0
      have hny := List.countP_eq_zero.mp h0 y hy
      simp at hny
      rw [List.mem_append, List.mem_singleton]
      by_cases hys : y ∈ sorted
      · exact Or.inl hys
      · exact Or.inr (hny hys)
  · intro s1 x s2 heq y hy
    rcases split_of_concat_eq sorted node s1 x s2 heq with ⟨_, hs1, hx⟩ | ⟨s2', _, hl⟩
    · rw [hs1]
      exact hndeps y (hx ▸ hy)
    · exact hsound s1 x s2' hl y hy

/-- Running Kahn's loop from any invariant-satisfying state, with fuel at
least the number of still-unsorted nodes, yields a duplicate-free list of
in-range nodes in which every node's dependencies appear strictly earlier,
and in which every missing in-range node still has a missing dependency. -/
theorem kahnLoop_spec (n : Nat) (deps : Nat → List Nat) :
    ∀ (fuel : Nat) (inDeg queue sorted : List Nat),
      KahnInv n deps inDeg queue sorted →
      n ≤ fuel + sorted.length →
      (kahnLoop (adjOf n deps) fuel inDeg queue sorted).Nodup
      ∧ (∀ x ∈ kahnLoop (adjOf n deps) fuel inDeg queue sorted, x < n)
      ∧ (∀ s1 x s2, kahnLoop (adjOf n deps) fuel inDeg queue sorted = s1 ++ x :: s2 →
          ∀ y ∈ deps x, y ∈ s1)
      ∧ (∀ x, x < n → x ∉ kahnLoop (adjOf n deps) fuel inDeg queue sorted →
          ∃ y ∈ deps x, y ∉ kahnLoop (adjOf n deps) fuel inDeg queue sorted) := by
  intro fuel
  induction fuel with
  | zero =>
      intro inDeg queue sorted inv hfuel
      have hfull : ∀ x, x < n → x ∈ sorted :=
        full_of_length n sorted inv.hsn inv.hslt (by omega)
      exact ⟨inv.hsn, inv.hslt, inv.hsound, fun x hxn hxs => absurd (hfull x hxn) hxs⟩
  | succ fuel ih =>
      intro inDeg queue sorted inv hfuel
      match queue with
      | [] =>
          have hk : kahnLoop (adjOf n deps) (fuel + 1) inDeg [] sorted = sorted := rfl
          rw [hk]
          refine ⟨inv.hsn, inv.hslt, inv.hsound, ?_⟩
          intro x hxn hxs
          have h1 := inv.hstuck x hxn hxs (List.not_mem_nil x)
          rw [inv.hdeg x hxn] at h1
          by_contra hc
          push_neg at hc
          apply h1
          rw [List.countP_eq_zero]
          intro y hy
          simp [hc y hy]
      | node :: rest =>
          have hstep := kahn_inv_step n deps inDeg node rest sorted inv
          have hfuel2 : n ≤ fuel + (sorted ++ [node]).length := by
            simp only [List.length_append, List.length_singleton]
            omega
          exact ih _ _ _ hstep hfuel2

/-- The state `topological_sort` starts Kahn's loop from satisfies the
invariant. -/
theorem kahn_inv_init (n : Nat) (deps : Nat → List Nat) :
    KahnInv n deps ((List.range n).map fun i => (deps i).length)
      ((List.range n).filter fun i =>
        ((List.range n).map fun i => (deps i).length).getD i 0 = 0)
      [] := by
  have hgetD : ∀ x, (((List.range n).map fun i => (deps i).length).getD x 0)
      = if x < n then (deps x).length else 0 := by
    intro x
    rw [List.getD_eq_getElem?_getD, List.getElem?_map]
    by_cases h : x < n
    · rw [List.getElem?_range h]
      simp [h]
    · rw [List.getElem?_eq_none (by simpa using h)]
      simp [h]
  refine ⟨by simp, ?_, ?_, List.nodup_nil, ?_, ?_, ?_, ?_, ?_, ?_, ?_⟩
  · intro x hx
    rw [hgetD x, if_pos hx]
    simp
  · exact (List.nodup_range n).filter _
  · intro x _ hc
    exact absurd hc (List.not_mem_nil x)
  · intro x hx
    exact List.mem_range.mp (List.mem_of_mem_filter hx)
  · intro x hx
    exact absurd hx (List.not_mem_nil x)
  · intro x hx hxs hxq hc
    apply hxq
    rw [List.mem_filter]
    refine ⟨List.mem_range.mpr hx, ?_⟩
    rw [decide_eq_true_eq]
    exact hc
  · intro x hx
    have := (List.mem_filter.mp hx).2
    simpa using this
  · intro x hx y hy
    have hx1 := (List.mem_filter.mp hx).2
    have hxlt := List.mem_range.mp (List.mem_of_mem_filter hx)
    rw [decide_eq_true_eq, hgetD x, if_pos hxlt] at hx1
    simp at hx1
    rw [hx1] at hy
    exact absurd hy (List.not_mem_nil y)
  · intro s1 x s2 heq
    exact absurd heq.symm (List.append_ne_nil_of_right_ne_nil s1 (List.cons_ne_nil x s2))

/-- What a successful `topological_sort` run guarantees: a permutation-style
listing of all `n` nodes (duplicate-free, in range, complete) in which each
node's dependencies appear strictly before it. -/
theorem topological_sort_ok (n : Nat) (deps : Nat → List Nat) (sorted : List Nat)
    (h : topological_sort n deps = .ok sorted) :
    sorted.length = n ∧ sorted.Nodup ∧ (∀ x ∈ sorted, x < n)
    ∧ (∀ s1 x s2, sorted = s1 ++ x :: s2 → ∀ y ∈ deps x, y ∈ s1)
    ∧ (∀ x, x < n → x ∈ sorted) := by
  unfold topological_sort at h
  by_cases hlen : (kahnLoop (adjOf n deps) n
      ((List.range n).map fun i => (deps i).length)
      ((List.range n).filter fun i =>
        ((List.range n).map fun i => (deps i).length).getD i 0 = 0) []).length = n
  · rw [if_neg (by simpa using hlen)] at h
    have hres := Except.ok.inj h
    have hspec := kahnLoop_spec n deps n _ _ [] (kahn_inv_init n deps) (by simp)
    rw [hres] at hspec
    rw [hres] at hlen
    refine ⟨hlen, hspec.1, hspec.2.1, hspec.2.2.1, ?_⟩
    exact full_of_length n sorted hspec.1 hspec.2.1 (by omega)
  · rw [if_pos (by simpa using hlen)] at h
    cases h

/-- `topological_sort` returns either a successful sort or exactly the fixed
circular-dependency error message. -/
theorem topological_sort_cases (n : Nat) (deps : Nat → List Nat) :
    (∃ sorted, topological_sort n deps = .ok sorted)
    ∨ topological_sort n deps
        = .error "Circular dependency detected in configuration dependencies" := by
  unfold topological_sort
  by_cases hlen : (kahnLoop (adjOf n deps) n
      ((List.range n).map fun i => (deps i).length)
      ((List.range n).filter fun i =>
        ((List.range n).map fun i => (deps i).length).getD i 0 = 0) []).length = n
  · rw [if_neg (by simpa using hlen)]
    exact Or.inl ⟨_, rfl⟩
  · rw [if_pos (by simpa using hlen)]
    exact Or.inr rfl

/-- Index of an element appended after a prefix that avoids it. -/
theorem indexOf_append_self (a : Nat) :
    ∀ (s1 s2 : List Nat), a ∉ s1 → (s1 ++ a :: s2).indexOf a = s1.length := by
  intro s1
  induction s1 with
  | nil => intro s2 _; simp [List.indexOf_cons_self]
  | cons h t ih =>
      intro s2 ha
      have hne : h ≠ a := fun hc => ha (by simp [hc])
      rw [List.cons_append, List.indexOf_cons_ne _ hne, ih s2 (fun hc => ha (by simp [hc]))]
      rfl

/-- Index of an element of the prefix is below the prefix length. -/
theorem indexOf_append_lt (b : Nat) :
    ∀ (s1 t : List Nat), b ∈ s1 → (s1 ++ t).indexOf b < s1.length := by
  intro s1
  induction s1 with
  | nil => intro t hb; cases hb
  | cons h t1 ih =>
      intro t hb
      by_cases hbh : h = b
      · subst hbh
        rw [List.cons_append, List.indexOf_cons_self]
        simp
      · have hmem : b ∈ t1 := by
          rcases List.mem_cons.mp hb with hc | hc
          · exact absurd hc.symm hbh
          · exact hc
        rw [List.cons_append, List.indexOf_cons_ne _ hbh]
        have := ih t hmem
        simp only [List.length_cons]
        omega

/-- In a duplicate-free sound ordering, every dependency sits at a strictly
smaller index than its dependent. -/
theorem sound_indexOf (deps : Nat → List Nat) (l : List Nat) (hnd : l.Nodup)
    (hsound : ∀ s1 x s2, l = s1 ++ x :: s2 → ∀ y ∈ deps x, y ∈ s1) :
    ∀ a b, a ∈ l → b ∈ deps a → b ∈ l ∧ l.indexOf b < l.indexOf a := by
  intro a b ha hb
  obtain ⟨s1, s2, rfl⟩ := List.mem_iff_append.mp ha
  have hbs1 : b ∈ s1 := hsound s1 a s2 rfl b hb
  have ha1 : a ∉ s1 := by
    rw [List.nodup_append] at hnd
    exact fun hc => hnd.2.2 hc (List.mem_cons_self a s2)
  refine ⟨List.mem_append.mpr (Or.inl hbs1), ?_⟩
  rw [indexOf_append_self a s1 s2 ha1]
  exact indexOf_append_lt b s1 (a :: s2) hbs1

/-- Along a chain whose steps strictly decrease `pos`, the last element's
`pos` does not exceed the first's. -/
theorem chain_getLast_le (pos : Nat → Nat) :
    ∀ (rest : List Nat) (x0 : Nat), List.Chain (fun a b => pos b < pos a) x0 rest →
      pos ((x0 :: rest).getLast (List.cons_ne_nil x0 rest)) ≤ pos x0 := by
  intro rest
  induction rest with
  | nil => intro x0 _; simp [List.getLast]
  | cons y t ih =>
      intro x0 h
      rcases List.chain_cons.mp h with ⟨hxy, hchain⟩
      have h1 := ih y hchain
      rw [List.getLast_cons (List.cons_ne_nil y t)]
      omega

/-- Transport a dependency chain into a strictly-decreasing position chain,
keeping the bound on the nodes. -/
theorem chain_transport (R S : Nat → Nat → Prop) (bound : Nat → Prop)
    (himp : ∀ a b, bound a → R a b → S a b ∧ bound b) :
    ∀ (rest : List Nat) (x0 : Nat), bound x0 → List.Chain R x0 rest →
      List.Chain S x0 rest ∧ ∀ x ∈ x0 :: rest, bound x := by
  intro rest
  induction rest with
  | nil =>
      intro x0 hb _
      refine ⟨List.Chain.nil, ?_⟩
      intro x hx
      rw [List.mem_singleton] at hx
      exact hx ▸ hb
  | cons y t ih =>
      intro x0 hb h
      rcases List.chain_cons.mp h with ⟨hxy, hchain⟩
      have h1 := himp x0 y hb hxy
      have h2 := ih y h1.2 hchain
      refine ⟨List.chain_cons.mpr ⟨h1.1, h2.1⟩, ?_⟩
      intro x hx
      rcases List.mem_cons.mp hx with hx | hx
      · exact hx ▸ hb
      · exact h2.2 x hx

/-- A duplicate-free list in which, at every split, the split element's
dependencies lie in the prefix, is pairwise "an earlier element never depends
on a later one". -/
theorem pairwise_of_sound (deps : Nat → List Nat) :
    ∀ (pre l : List Nat), (pre ++ l).Nodup →
      (∀ s1 x s2, pre ++ l = s1 ++ x :: s2 → ∀ y ∈ deps x, y ∈ s1) →
      l.Pairwise fun a b => b ∉ deps a := by
  intro pre l
  induction l generalizing pre with
  | nil => intro _ _; exact List.Pairwise.nil
  | cons x rest ih =>
      intro hnd hsound
      refine List.pairwise_cons.mpr ⟨?_, ?_⟩
      · intro b hb hbdep
        have hbpre : b ∈ pre := hsound pre x rest rfl b hbdep
        rw [List.nodup_append] at hnd
        exact hnd.2.2 hbpre (List.mem_cons_of_mem x hb)
      · have hre : pre ++ x :: rest = (pre ++ [x]) ++ rest := by simp
        apply ih (pre ++ [x])
        · rw [← hre]
          exact hnd
        · intro s1 z s2 heq
          apply hsound s1 z s2
          rw [hre, heq]

/-- A duplicate-free list of values below `n` has length at most `n`. -/
theorem length_le_of_nodup_lt (n : Nat) (l : List Nat) (hnd : l.Nodup)
    (hlt : ∀ x ∈ l, x < n) : l.length ≤ n := by
  have hsub : l.toFinset ⊆ Finset.range n := fun a ha =>
    Finset.mem_range.mpr (hlt a (List.mem_toFinset.mp ha))
  have hc := Finset.card_le_card hsub
  rw [List.toFinset_card_of_nodup hnd, Finset.card_range] at hc
  exact hc

/-- A list containing every value below `n` has length at least `n`. -/
theorem length_ge_of_full (n : Nat) (l : List Nat) (hfull : ∀ x, x < n → x ∈ l) :
    n ≤ l.length := by
  have hsub : Finset.range n ⊆ l.toFinset := fun a ha =>
    List.mem_toFinset.mpr (hfull a (Finset.mem_range.mp ha))
  have hc := Finset.card_le_card hsub
  rw [Finset.card_range] at hc
  exact hc.trans (List.toFinset_card_le l)

/-- When the dependency relation admits a rank function (the standard witness
of acyclicity on a finite graph), `topological_sort` succeeds: every in-range
node ends up sorted. -/
theorem topological_sort_ok_of_rank (n : Nat) (deps : Nat → List Nat)
    (hdlt : ∀ u y, y ∈ deps u → y < n) (rank : Nat → Nat)
    (hrank : ∀ x, x < n → ∀ y ∈ deps x, rank y < rank x) :
    ∃ sorted, topological_sort n deps = .ok sorted := by
  have hspec := kahnLoop_spec n deps n _ _ [] (kahn_inv_init n deps) (by simp)
  have hfull : ∀ x, x < n →
      x ∈ kahnLoop (adjOf n deps) n ((List.range n).map fun i => (deps i).length)
        ((List.range n).filter fun i =>
          ((List.range n).map fun i => (deps i).length).getD i 0 = 0) [] := by
    have H : ∀ k x, rank x < k → x < n →
        x ∈ kahnLoop (adjOf n deps) n ((List.range n).map fun i => (deps i).length)
          ((List.range n).filter fun i =>
            ((List.range n).map fun i => (deps i).length).getD i 0 = 0) [] := by
      intro k
      induction k with
      | zero => intro x hr _; omega
      | succ k ih =>
          intro x hr hx
          by_contra hc
          obtain ⟨y, hy, hynot⟩ := hspec.2.2.2 x hx hc
          exact hynot (ih y (by have := hrank x hx y hy; omega) (hdlt x y hy))
    intro x hx
    exact H (rank x + 1) x (by omega) hx
  have hlen : (kahnLoop (adjOf n deps) n ((List.range n).map fun i => (deps i).length)
      ((List.range n).filter fun i =>
        ((List.range n).map fun i => (deps i).length).getD i 0 = 0) []).length = n := by
    have hle := length_le_of_nodup_lt n _ hspec.1 hspec.2.1
    have hge := length_ge_of_full n _ hfull
    omega
  unfold topological_sort
  rw [if_neg (by omega)]
  exact ⟨_, rfl⟩

/-- Every dependency of `idx` is an in-range index different from `idx`. -/
theorem configDeps_mem_lt (configs : List BuildConfig) (idx y : Nat)
    (h : y ∈ configDeps configs idx) : y < configs.length ∧ y ≠ idx := by
  unfold configDeps at h
  simp only [List.mem_flatMap, List.mem_filter, Bool.and_eq_true, decide_eq_true_eq] at h
  obtain ⟨dir, _, hy⟩ := h
  exact ⟨List.mem_range.mp hy.1, hy.2.1⟩

/-- Self-edges are excluded by construction (`provider_idx != idx`). -/
theorem configDeps_self_not_mem (configs : List BuildConfig) (idx : Nat) :
    idx ∉ configDeps configs idx :=
  fun h => (configDeps_mem_lt configs idx idx h).2 rfl

/-- `inChain` decides `onEdge`. -/
theorem inChain_iff_onEdge (configs : List BuildConfig) (i : Nat) :
    inChain configs i = true ↔ onEdge configs i := by
  unfold inChain onEdge
  rw [Bool.or_eq_true, List.any_eq_true]
  constructor
  · rintro (h | ⟨u, hu, hmem⟩)
    · left
      simp only [Bool.not_eq_true'] at h
      intro hc
      rw [hc] at h
      simp at h
    · right
      refine ⟨u, List.mem_range.mp hu, ?_⟩
      simpa [List.contains, List.elem_eq_mem] using hmem
  · rintro (h | ⟨u, hu, hmem⟩)
    · left
      simp only [Bool.not_eq_true']
      cases hE : (configDeps configs i).isEmpty with
      | true => exact absurd (List.isEmpty_iff.mp hE) h
      | false => rfl
    · right
      exact ⟨u, List.mem_range.mpr hu, by simpa [List.contains, List.elem_eq_mem] using hmem⟩

/-- With a single configuration there is no dependency edge at all. -/
theorem onEdge_single (configs : List BuildConfig) (h1 : configs.length = 1) :
    ¬ onEdge configs 0 := by
  have hdeps0 : configDeps configs 0 = [] := by
    rw [List.eq_nil_iff_forall_not_mem]
    intro y hy
    have hb := configDeps_mem_lt configs 0 y hy
    rw [h1] at hb
    omega
  rintro (h | ⟨u, hu, hmem⟩)
  · exact h hdeps0
  · rw [h1] at hu
    have hu0 : u = 0 := by omega
    rw [hu0] at hmem
    exact configDeps_self_not_mem configs 0 hmem

/-- C9: dependency-resolution edge cases.  An empty configuration list yields
both outputs empty; a single configuration is returned as independent with no
dependent groups; and no configuration ever receives a dependency edge to
itself (`provider_idx != idx` excludes self-edges by construction, whatever
the configuration's directories are). -/
theorem group_configs_edge_cases (c : BuildConfig) (configs : List BuildConfig) (idx : Nat) :
    group_configs_by_dependencies [] = .ok ([], [])
    ∧ group_configs_by_dependencies [c] = .ok ([⟨0, c⟩], [])
    ∧ idx ∉ configDeps configs idx := by
  refine ⟨rfl, ?_, configDeps_self_not_mem configs idx⟩
  unfold group_configs_by_dependencies
  rw [if_neg (by simp), if_pos (by simp)]
  rfl

/-- A string containing `sub` contains at least as many occurrences of every
character as `sub` does. -/
theorem containsStr_count (s sub : String) (h : containsStr s sub) (c : Char) :
    sub.data.count c ≤ s.data.count c := by
  obtain ⟨pre, post, hs⟩ := h
  rw [hs]
  simp only [String.data_append, List.count_append]
  omega

/-- C2 (amended): whenever the dependency edges contain a cycle — a nonempty
edge-chain `x0 → … → last` whose last node has an edge back to `x0` —
`group_configs_by_dependencies` fails with the fixed error message
"Circular dependency detected in configuration dependencies" and returns no
(independent, dependent-groups) output.  (As `group_configs_cycle_message`
shows, the message is a constant: it does not name the configurations kept
out of the sort.) -/
theorem group_configs_cycle_error (configs : List BuildConfig) (x0 : Nat) (rest : List Nat)
    (hchain : List.Chain (fun a b => b ∈ configDeps configs a) x0 rest)
    (hwrap : x0 ∈ configDeps configs ((x0 :: rest).getLast (List.cons_ne_nil x0 rest))) :
    group_configs_by_dependencies configs
      = .error "Circular dependency detected in configuration dependencies" := by
  have hx0 := configDeps_mem_lt configs _ x0 hwrap
  have hboundall := chain_transport (fun a b => b ∈ configDeps configs a)
    (fun a b => b ∈ configDeps configs a) (fun x => x < configs.length)
    (fun a b _ hR => ⟨hR, (configDeps_mem_lt configs a b hR).1⟩) rest x0 hx0.1 hchain
  have hlast_lt : (x0 :: rest).getLast (List.cons_ne_nil x0 rest) < configs.length :=
    hboundall.2 _ (List.getLast_mem (List.cons_ne_nil x0 rest))
  have hn2 : 2 ≤ configs.length := by
    rcases Nat.lt_or_ge configs.length 2 with hlt | hge
    · exfalso
      have h0 : x0 = 0 := by omega
      have hl0 : (x0 :: rest).getLast (List.cons_ne_nil x0 rest) = 0 := by omega
      rw [hl0, h0] at hwrap
      exact configDeps_self_not_mem configs 0 hwrap
    · exact hge
  rcases topological_sort_cases configs.length (configDeps configs) with ⟨sorted, hok⟩ | herr
  · exfalso
    have hspec := topological_sort_ok configs.length _ sorted hok
    have hposlemma := sound_indexOf (configDeps configs) sorted hspec.2.1 hspec.2.2.2.1
    have himp : ∀ a b, a < configs.length → b ∈ configDeps configs a →
        sorted.indexOf b < sorted.indexOf a ∧ b < configs.length := by
      intro a b ha hR
      have hb := (configDeps_mem_lt configs a b hR).1
      have hmem_a : a ∈ sorted := hspec.2.2.2.2 a ha
      exact ⟨(hposlemma a b hmem_a hR).2, hb⟩
    have hchain2 := chain_transport (fun a b => b ∈ configDeps configs a)
      (fun a b => sorted.indexOf b < sorted.indexOf a) (fun x => x < configs.length)
      himp rest x0 hx0.1 hchain
    have hlast_le := chain_getLast_le (fun x => sorted.indexOf x) rest x0 hchain2.1
    have hlast_mem : (x0 :: rest).getLast (List.cons_ne_nil x0 rest) ∈ sorted :=
      hspec.2.2.2.2 _ hlast_lt
    have hwrap_lt := (hposlemma _ x0 hlast_mem hwrap).2
    simp only at hlast_le hwrap_lt
    omega
  · unfold group_configs_by_dependencies
    rw [if_neg (by omega), if_neg (by omega), herr]

/-- C2 counterexample to the claim as stated: the error message is a constant
that names no configuration.  Two entirely different two-configuration cycles
produce the identical message, and the message contains neither the resource
directory "a/res" nor the package name "com.a" of the cycling configurations
(it contains no "/" and no "." at all, while every path or package name
does). -/
theorem group_configs_cycle_message :
    group_configs_by_dependencies
        [⟨"a/res", some ["b/res"], "com.a"⟩, ⟨"b/res", some ["a/res"], "com.b"⟩]
      = .error "Circular dependency detected in configuration dependencies"
    ∧ group_configs_by_dependencies
        [⟨"c/res", some ["d/res"], "com.c"⟩, ⟨"d/res", some ["c/res"], "com.d"⟩]
      = .error "Circular dependency detected in configuration dependencies"
    ∧ ¬ containsStr "Circular dependency detected in configuration dependencies" "a/res"
    ∧ ¬ containsStr "Circular dependency detected in configuration dependencies" "com.a" := by
  refine ⟨rfl, rfl, ?_, ?_⟩
  · intro h
    have hc := containsStr_count _ _ h '/'
    revert hc
    decide
  · intro h
    have hc := containsStr_count _ _ h '.'
    revert hc
    decide

/-- Witness for C2 (amended) on the concrete two-configuration cycle. -/
theorem group_configs_cycle_error_witness :
    group_configs_by_dependencies
        [⟨"a/res", some ["b/res"], "com.a"⟩, ⟨"b/res", some ["a/res"], "com.b"⟩]
      = .error "Circular dependency detected in configuration dependencies" :=
  group_configs_cycle_error
    [⟨"a/res", some ["b/res"], "com.a"⟩, ⟨"b/res", some ["a/res"], "com.b"⟩]
    0 [1] (List.Chain.cons (by decide) List.Chain.nil) (by decide)

/-- C3: on an acyclic dependency graph (witnessed, as is standard for finite
graphs, by a rank function that strictly decreases along every dependency
edge), `group_configs_by_dependencies` succeeds, splitting the configurations
into the independent ones — exactly those touching no dependency edge — and
at most one dependent group holding exactly the configurations on some edge,
ordered so that no configuration in the group precedes one of its
dependencies (each earlier entry never depends on a later one). -/
theorem group_configs_acyclic (configs : List BuildConfig) (rank : Nat → Nat)
    (hrank : ∀ x, x < configs.length → ∀ y ∈ configDeps configs x, rank y < rank x) :
    ∃ indep groups, group_configs_by_dependencies configs = .ok (indep, groups)
    ∧ groups.length ≤ 1
    ∧ (∀ cw ∈ indep, ¬ onEdge configs cw.index)
    ∧ (∀ i, i < configs.length → ¬ onEdge configs i → ∃ cw ∈ indep, cw.index = i)
    ∧ (∀ g ∈ groups, ∀ cw ∈ g, onEdge configs cw.index)
    ∧ (∀ i, i < configs.length → onEdge configs i → ∃ g ∈ groups, ∃ cw ∈ g, cw.index = i)
    ∧ (∀ g ∈ groups, g.Pairwise fun a b => b.index ∉ configDeps configs a.index) := by
  by_cases h0 : configs.length = 0
  · refine ⟨[], [], ?_, by simp, ?_, ?_, ?_, ?_, ?_⟩
    · unfold group_configs_by_dependencies
      rw [if_pos h0]
    · intro cw hcw
      exact absurd hcw (List.not_mem_nil cw)
    · intro i hi _
      exfalso
      omega
    · intro g hg
      exact absurd hg (List.not_mem_nil g)
    · intro i hi _
      exfalso
      omega
    · intro g hg
      exact absurd hg (List.not_mem_nil g)
  · by_cases h1 : configs.length = 1
    · refine ⟨[⟨0, configs.getD 0 defaultConfig⟩], [], ?_, by simp, ?_, ?_, ?_, ?_, ?_⟩
      · unfold group_configs_by_dependencies
        rw [if_neg h0, if_pos h1]
      · intro cw hcw
        rw [List.mem_singleton] at hcw
        subst hcw
        exact onEdge_single configs h1
      · intro i hi _
        have hi0 : i = 0 := by omega
        subst hi0
        exact ⟨⟨0, configs.getD 0 defaultConfig⟩, List.mem_singleton.mpr rfl, rfl⟩
      · intro g hg
        exact absurd hg (List.not_mem_nil g)
      · intro i hi hoe
        have hi0 : i = 0 := by omega
        subst hi0
        exact absurd hoe (onEdge_single configs h1)
      · intro g hg
        exact absurd hg (List.not_mem_nil g)
    · have hge : 2 ≤ configs.length := by omega
      have hdlt : ∀ u y, y ∈ configDeps configs u → y < configs.length :=
        fun u y hy => (configDeps_mem_lt configs u y hy).1
      obtain ⟨sorted, hok⟩ :=
        topological_sort_ok_of_rank configs.length (configDeps configs) hdlt rank hrank
      have hspec := topological_sort_ok configs.length (configDeps configs) sorted hok
      refine ⟨(sorted.map fun i => ConfigWithIndex.mk i (configs.getD i defaultConfig)).filter
          fun cw => !(inChain configs cw.index),
        if ((sorted.map fun i => ConfigWithIndex.mk i (configs.getD i defaultConfig)).filter
            fun cw => inChain configs cw.index).isEmpty then []
        else [(sorted.map fun i => ConfigWithIndex.mk i (configs.getD i defaultConfig)).filter
            fun cw => inChain configs cw.index],
        ?_, ?_, ?_, ?_, ?_, ?_, ?_⟩
      · unfold group_configs_by_dependencies
        rw [if_neg h0, if_neg h1, hok]
      · split <;> simp
      · intro cw hcw hoe
        simp only [List.mem_filter] at hcw
        have h2 := hcw.2
        rw [(inChain_iff_onEdge configs cw.index).mpr hoe] at h2
        simp at h2
      · intro i hi hnoe
        have hfalse : inChain configs i = false := by
          cases hcs : inChain configs i with
          | false => rfl
          | true => exact absurd ((inChain_iff_onEdge configs i).mp hcs) hnoe
        refine ⟨⟨i, configs.getD i defaultConfig⟩, ?_, rfl⟩
        simp only [List.mem_filter, List.mem_map]
        refine ⟨⟨i, hspec.2.2.2.2 i hi, rfl⟩, ?_⟩
        simp [hfalse]
      · intro g hg
        split at hg
        · exact absurd hg (List.not_mem_nil g)
        · rw [List.mem_singleton] at hg
          subst hg
          intro cw hcw
          simp only [List.mem_filter] at hcw
          exact (inChain_iff_onEdge configs cw.index).mp hcw.2
      · intro i hi hoe
        have htrue : inChain configs i = true := (inChain_iff_onEdge configs i).mpr hoe
        have hmem : (ConfigWithIndex.mk i (configs.getD i defaultConfig)) ∈
            (sorted.map fun j => ConfigWithIndex.mk j (configs.getD j defaultConfig)).filter
              fun cw => inChain configs cw.index := by
          simp only [List.mem_filter, List.mem_map]
          exact ⟨⟨i, hspec.2.2.2.2 i hi, rfl⟩, by simp [htrue]⟩
        have hne : ((sorted.map fun j => ConfigWithIndex.mk j
              (configs.getD j defaultConfig)).filter
            fun cw => inChain configs cw.index).isEmpty = false := by
          cases hE : ((sorted.map fun j => ConfigWithIndex.mk j
                (configs.getD j defaultConfig)).filter
              fun cw => inChain configs cw.index).isEmpty with
          | false => rfl
          | true =>
              rw [List.isEmpty_iff.mp hE] at hmem
              exact absurd hmem (List.not_mem_nil _)
        refine ⟨(sorted.map fun j => ConfigWithIndex.mk j (configs.getD j defaultConfig)).filter
            fun cw => inChain configs cw.index,
          ?_, ConfigWithIndex.mk i (configs.getD i defaultConfig), hmem, rfl⟩
        rw [hne]
        simp
      · intro g hg
        split at hg
        · exact absurd hg (List.not_mem_nil g)
        · rw [List.mem_singleton] at hg
          subst hg
          have hpw : sorted.Pairwise fun a b => b ∉ configDeps configs a :=
            pairwise_of_sound (configDeps configs) [] sorted hspec.2.1 hspec.2.2.2.1
          have hpwW : ((sorted.map fun j => ConfigWithIndex.mk j
                (configs.getD j defaultConfig))).Pairwise
              fun a b => b.index ∉ configDeps configs a.index := by
            rw [List.pairwise_map]
            exact hpw
          exact List.Pairwise.sublist (List.filter_sublist _) hpwW

/-- Witness for C3 on a concrete three-configuration chain `0 ← 1 ← 2`
(rank function: the identity). -/
theorem group_configs_acyclic_witness :
    ∃ indep groups,
      group_configs_by_dependencies
          [⟨"a/res", none, "com.a"⟩, ⟨"b/res", some ["a/res"], "com.b"⟩,
           ⟨"c/res", some ["b/res"], "com.c"⟩]
        = .ok (indep, groups)
      ∧ groups.length ≤ 1
      ∧ (∀ cw ∈ indep, ¬ onEdge [⟨"a/res", none, "com.a"⟩,
          ⟨"b/res", some ["a/res"], "com.b"⟩,
          ⟨"c/res", some ["b/res"], "com.c"⟩] cw.index)
      ∧ (∀ i, i < ([⟨"a/res", none, "com.a"⟩, ⟨"b/res", some ["a/res"], "com.b"⟩,
            ⟨"c/res", some ["b/res"], "com.c"⟩] : List BuildConfig).length →
          ¬ onEdge [⟨"a/res", none, "com.a"⟩, ⟨"b/res", some ["a/res"], "com.b"⟩,
            ⟨"c/res", some ["b/res"], "com.c"⟩] i → ∃ cw ∈ indep, cw.index = i)
      ∧ (∀ g ∈ groups, ∀ cw ∈ g, onEdge [⟨"a/res", none, "com.a"⟩,
          ⟨"b/res", some ["a/res"], "com.b"⟩,
          ⟨"c/res", some ["b/res"], "com.c"⟩] cw.index)
      ∧ (∀ i, i < ([⟨"a/res", none, "com.a"⟩, ⟨"b/res", some ["a/res"], "com.b"⟩,
            ⟨"c/res", some ["b/res"], "com.c"⟩] : List BuildConfig).length →
          onEdge [⟨"a/res", none, "com.a"⟩, ⟨"b/res", some ["a/res"], "com.b"⟩,
            ⟨"c/res", some ["b/res"], "com.c"⟩] i →
          ∃ g ∈ groups, ∃ cw ∈ g, cw.index = i)
      ∧ (∀ g ∈ groups, g.Pairwise fun a b =>
          b.index ∉ configDeps [⟨"a/res", none, "com.a"⟩,
            ⟨"b/res", some ["a/res"], "com.b"⟩,
            ⟨"c/res", some ["b/res"], "com.c"⟩] a.index) :=
  group_configs_acyclic
    [⟨"a/res", none, "com.a"⟩, ⟨"b/res", some ["a/res"], "com.b"⟩,
     ⟨"c/res", some ["b/res"], "com.c"⟩]
    (fun z => z) (by decide)

end Asb
